import Mathlib

/-!
Verification development for the client-side synchronized-table engine
(`SyncTable` in `client-side-throttle.ts`).  The engine keeps two snapshots
of a server table, `value_local` and `value_server`, both immutable maps
from a canonical string key to a record (a map from field name to value).
We shallowly embed the maps as key-sorted association lists, so that
structural equality of the embedding coincides with the value equality
used by the source (immutable.js `equals` / `is`) on canonical inputs.
Null-valued fields of a record are modelled as absent fields, which has
the same observable lookup semantics.  The embedding fixes tables with a
single primary-key field (the fast path of the source `_key` function);
compound primary keys take the other branch and are not modelled.
-/

set_option maxHeartbeats 1000000

namespace SyncTableModel

/-- A field value of a record: a string, a number, or a nested object
(immutable.js collections are maps after `fromJS`). -/
inductive Value where
  | vstr : String → Value
  | vnat : Nat → Value
  | vobj : List (String × Value) → Value

mutual

/-- Decidable equality of values (immutable.js deep structural `is`). -/
def decEqValue : (a b : Value) → Decidable (a = b)
  | .vstr a, .vstr b =>
    if h : a = b then isTrue (by rw [h]) else isFalse (by simp [h])
  | .vstr _, .vnat _ => isFalse (fun h => nomatch h)
  | .vstr _, .vobj _ => isFalse (fun h => nomatch h)
  | .vnat _, .vstr _ => isFalse (fun h => nomatch h)
  | .vnat a, .vnat b =>
    if h : a = b then isTrue (by rw [h]) else isFalse (by simp [h])
  | .vnat _, .vobj _ => isFalse (fun h => nomatch h)
  | .vobj _, .vstr _ => isFalse (fun h => nomatch h)
  | .vobj _, .vnat _ => isFalse (fun h => nomatch h)
  | .vobj a, .vobj b =>
    match decEqFields a b with
    | isTrue h => isTrue (by rw [h])
    | isFalse h => isFalse (by intro hc; injection hc with hx; exact h hx)
termination_by structural a => a

/-- Decidable equality of field lists of a nested object. -/
def decEqFields : (a b : List (String × Value)) → Decidable (a = b)
  | [], [] => isTrue rfl
  | [], _ :: _ => isFalse (fun h => nomatch h)
  | _ :: _, [] => isFalse (fun h => nomatch h)
  | (k1, v1) :: t1, (k2, v2) :: t2 =>
    if h1 : k1 = k2 then
      match decEqValue v1 v2 with
      | isTrue h2 =>
        match decEqFields t1 t2 with
        | isTrue h3 => isTrue (by rw [h1, h2, h3])
        | isFalse h3 =>
          isFalse (by intro hc; injection hc with hh ht; exact h3 ht)
      | isFalse h2 =>
        isFalse (by
          intro hc; injection hc with hh ht; injection hh with ha hb
          exact h2 hb)
    else
      isFalse (by
        intro hc; injection hc with hh ht; injection hh with ha hb
        exact h1 ha)
termination_by structural a => a

end

instance : DecidableEq Value := decEqValue

/-- Lexicographic comparison of character lists by code point, used to
keep the association lists key-sorted. -/
def strLtAux : List Char → List Char → Bool
  | [], [] => false
  | [], _ :: _ => true
  | _ :: _, [] => false
  | a :: as, b :: bs =>
    if a.toNat < b.toNat then true
    else if b.toNat < a.toNat then false
    else strLtAux as bs

/-- Lexicographic comparison of strings by code point. -/
def strLt (a b : String) : Bool := strLtAux a.data b.data

/-- A record of the table: a map from field name to value, embedded as a
key-sorted association list. -/
abbrev Record := List (String × Value)

/-- A table snapshot: map from canonical primary key to record. -/
abbrev StateMap := List (String × Record)

/-- Lookup of a key in an association list (immutable.js `Map.get`). -/
def rlookup : List (String × α) → String → Option α
  | [], _ => none
  | (k1, v1) :: t, k => if k = k1 then some v1 else rlookup t k

/-- Ordered insert-or-replace (immutable.js `Map.set`), keeping the list
sorted by key so that structural equality is map equality. -/
def rinsert : List (String × α) → String → α → List (String × α)
  | [], k, v => [(k, v)]
  | (k1, v1) :: t, k, v =>
    if strLt k k1 then (k, v) :: (k1, v1) :: t
    else if k = k1 then (k, v) :: t
    else (k1, v1) :: rinsert t k v

/-- Removal of a key (immutable.js `Map.delete`). -/
def rerase (l : List (String × α)) (k : String) : List (String × α) :=
  l.filter (fun e => e.1 ≠ k)

/-- Well-formedness of the association-list embedding: keys strictly
increasing, hence duplicate-free; structural equality is map equality. -/
def Canon (l : List (String × α)) : Prop :=
  l.Pairwise (fun a b => strLt a.1 b.1 = true)

instance decCanon (l : List (String × α)) : Decidable (Canon l) :=
  inferInstanceAs
    (Decidable (List.Pairwise (fun (a b : String × α) => strLt a.1 b.1 = true) l))


mutual

/-- Stable stringification of a value, used by `to_key` for object keys
(`json_stable_stringify` in the source). -/
def stringifyValue : Value → String
  | .vstr s => "\"" ++ s ++ "\""
  | .vnat n => toString n
  | .vobj l => "(" ++ stringifyFields l ++ ")"
termination_by structural a => a

/-- Stable stringification of the fields of a nested object. -/
def stringifyFields : List (String × Value) → String
  | [] => ""
  | (k, v) :: t => "\"" ++ k ++ "\":" ++ stringifyValue v ++ "," ++ stringifyFields t
termination_by structural a => a

end

/-- The source `to_key`: object values are rendered with the stable
stringify, other values convert to their string form. -/
def toKey : Value → String
  | .vstr s => s
  | .vnat n => toString n
  | .vobj l => stringifyValue (.vobj l)

/-- The key-extraction function `_key` for a single-field primary key:
the value of the primary-key field rendered as a string, or none when the
field is absent. -/
def tkey (pk : String) (obj : Record) : Option String :=
  match rlookup obj pk with
  | none => none
  | some v => some (toKey v)

/-- The connection states of the table state machine. -/
inductive ConnState where
  | connecting
  | connected
  | disconnected
  | reconnecting
  | closed
deriving DecidableEq

/-- The per-table schema data computed by `init_query`: the primary-key
field, the fields the caller may set, the fields required on record
creation, and whether the table has a set query at all. -/
structure TableSchema where
  pk : String
  set_fields : List String
  required_set_fields : List String
  has_set : Bool
deriving DecidableEq

/-- The mutable state of one `SyncTable` engine instance. -/
structure SyncState where
  state : ConnState
  value_local : Option StateMap
  value_server : Option StateMap
  is_saving : Bool
deriving DecidableEq

/-- The result of `_handle_new_val`: the updated local and server maps,
the keys pushed onto `changed_keys`, the conflict events emitted
(payload new value and merged old value), and the conflict flag. -/
structure HNV where
  localm : StateMap
  serverm : StateMap
  pushed : List String
  conflicts : List (Record × Record)
  conflict : Bool
deriving DecidableEq

/-- Lookup of a field in a possibly-absent record (the optional-chained
`server?.get(k)` and `c.old_val?.get(k)` of the source). -/
def olookup (o : Option Record) (k : String) : Option Value :=
  match o with
  | some r => rlookup r k
  | none => none

/-- The patch loop of `_handle_new_val`: set in the local record every
field whose incoming value differs from the last known server value. -/
def applyPatch (server_rec : Option Record) (local_val : Record)
    (new_val : Record) : Record :=
  new_val.foldl
    (fun acc e =>
      if olookup server_rec e.1 = some e.2
      then acc else rinsert acc e.1 e.2)
    local_val

/-- The deletion loop of `_handle_new_val`: remove from the local record
every field present in the last server value but absent from the incoming
record. -/
def applyDeletes (server_rec : Record) (new_val : Record)
    (local_val : Record) : Record :=
  server_rec.foldl
    (fun acc e => if rlookup new_val e.1 = none then rerase acc e.1 else acc)
    local_val

/-- The full 3-way merge of `_handle_new_val` on an existing local record:
replay the upstream field-level patch onto the local copy. -/
def mergeLocal (server_rec : Option Record) (local_val new_val : Record) :
    Record :=
  let patched := applyPatch server_rec local_val new_val
  match server_rec with
  | some s => applyDeletes s new_val patched
  | none => patched

/-- The source `_handle_new_val`: apply one incoming server record to the
dual state.  Records whose primary key is absent are left unmodelled (the
theorems assume the key is present). -/
def handle_new_val (sch : TableSchema) (localm serverm : StateMap)
    (val : Record) : HNV :=
  match tkey sch.pk val with
  | none => ⟨localm, serverm, [], [], false⟩
  | some key =>
    match rlookup localm key with
    | none =>
      ⟨rinsert localm key val, rinsert serverm key val, [key], [], false⟩
    | some local_val =>
      if val = local_val then
        ⟨localm, rinsert serverm key val, [], [], false⟩
      else
        let merged := mergeLocal (rlookup serverm key) local_val val
        let localm2 := if merged = local_val then localm
          else rinsert localm key merged
        let pushed := if merged = local_val then ([] : List String) else [key]
        if merged = val then
          ⟨localm2, rinsert serverm key val, pushed, [], false⟩
        else
          ⟨localm2, rinsert serverm key val, pushed, [(val, merged)], true⟩

/-- Restructure the snapshot array into a map from primary key to record
(the loop building `x` in `_update_all`); records without a computable key
are skipped (the theorems assume every record has one). -/
def buildX (sch : TableSchema) (recs : List Record) : StateMap :=
  recs.foldl
    (fun acc y =>
      match tkey sch.pk y with
      | some k => rinsert acc k y
      | none => acc)
    []

/-- Accumulator threaded through the key iteration of `_update_all`. -/
structure Acc where
  localm : StateMap
  serverm : StateMap
  pushed : List String
  conflicts : List (Record × Record)
  conflict : Bool
deriving DecidableEq

/-- One step of the DELETE-or-CHANGED iteration of `_update_all` over the
keys of the local map. -/
def processEntry (sch : TableSchema) (x : StateMap) (acc : Acc)
    (e : String × Record) : Acc :=
  match rlookup x e.1 with
  | some xr =>
    let h := handle_new_val sch acc.localm acc.serverm xr
    ⟨h.localm, h.serverm, acc.pushed ++ h.pushed, acc.conflicts ++ h.conflicts,
      acc.conflict || h.conflict⟩
  | none =>
    if rlookup acc.localm e.1 = rlookup acc.serverm e.1 then
      ⟨rerase acc.localm e.1, acc.serverm, acc.pushed ++ [e.1], acc.conflicts,
        acc.conflict⟩
    else
      ⟨acc.localm, acc.serverm, acc.pushed, acc.conflicts, true⟩

/-- The NEWLY ADDED loop of `_update_all`: adopt every server key not yet
present locally. -/
def addNew (acc : Acc) (x : StateMap) : Acc :=
  x.foldl
    (fun a e =>
      if rlookup a.localm e.1 = none then
        ⟨rinsert a.localm e.1 e.2, a.serverm, a.pushed ++ [e.1], a.conflicts,
          a.conflict⟩
      else a)
    acc

/-- The result of `_update_all` or `_update_change`: the new engine state,
the computed `changed_keys`, whether this was the very first snapshot,
the conflict flag, the argument of the `emit_change` call when one is
made, the conflict events emitted, and whether `save()` was invoked. -/
structure UAResult where
  st : SyncState
  pushed : List String
  firstConnect : Bool
  conflict : Bool
  emitCall : Option (List String)
  conflicts : List (Record × Record)
  saveTriggered : Bool
deriving DecidableEq

/-- The source `_update_all`: full resync against a complete snapshot.
On the first snapshot the state is adopted wholesale and all keys are
reported changed; otherwise each key is merged, locally deleted keys are
reconciled, new keys adopted, and the server state advanced when anything
changed.  The change notification fires when keys changed, or on the
first connection even with no keys. -/
def update_all (sch : TableSchema) (st : SyncState)
    (v : Option (List Record)) : UAResult :=
  if st.state = ConnState.closed then ⟨st, [], false, false, none, [], false⟩
  else
    match v with
    | none => ⟨st, [], false, false, none, [], false⟩
    | some recs =>
      let x := buildX sch recs
      match st.value_local, st.value_server with
      | some L0, some S0 =>
        let a1 := L0.foldl (processEntry sch x) ⟨L0, S0, [], [], false⟩
        let a2 := addNew a1 x
        let serverFinal := if a2.pushed ≠ [] then x else a2.serverm
        let emitCall := if a2.pushed ≠ [] then some a2.pushed else none
        ⟨⟨st.state, some a2.localm, some serverFinal, st.is_saving⟩,
          a2.pushed, false, a2.conflict, emitCall, a2.conflicts, a2.conflict⟩
      | _, _ =>
        let pushed := x.map Prod.fst
        ⟨⟨st.state, some x, some x, st.is_saving⟩,
          pushed, true, false, some pushed, [], false⟩

/-- One incremental changefeed message: the new record and, when the
record key changed identity or the record was deleted, the prior one. -/
structure Change where
  new_val : Option Record
  old_val : Option Record
deriving DecidableEq

/-- The key of an optional record (`_key` returns undefined on a missing
argument, as for a pure-delete message with no new value). -/
def keyOfOpt (pk : String) : Option Record → Option String
  | some nv => tkey pk nv
  | none => none

/-- The `_handle_new_val` step of `_update_change` when a new value is
present; a message without one leaves the state untouched. -/
def hnvOpt (sch : TableSchema) (L S : StateMap) : Option Record → HNV
  | some nv => handle_new_val sch L S nv
  | none => ⟨L, S, [], [], false⟩

/-- The source `_update_change`: apply one incoming changefeed record.
The new value goes through the 3-way merge; when an old value with a
different key is present, that key is removed from both local and server
state.  Notification fires only when keys changed, and a conflicting
merge triggers a save only in that case. -/
def update_change (sch : TableSchema) (st : SyncState) (c : Change) :
    UAResult :=
  if st.state = ConnState.closed then ⟨st, [], false, false, none, [], false⟩
  else
    match st.value_local, st.value_server with
    | some L0, some S0 =>
      let h := hnvOpt sch L0 S0 c.new_val
      let kOld := keyOfOpt sch.pk c.old_val
      let kNew := keyOfOpt sch.pk c.new_val
      let r2 : StateMap × StateMap × List String :=
        if c.old_val.isSome ∧ kOld ≠ kNew then
          match kOld with
          | some k => (rerase h.localm k, rerase h.serverm k, h.pushed ++ [k])
          | none => (h.localm, h.serverm, h.pushed)
        else (h.localm, h.serverm, h.pushed)
      let emitCall := if r2.2.2 ≠ [] then some r2.2.2 else none
      ⟨⟨st.state, some r2.1, some r2.2.1, st.is_saving⟩,
        r2.2.2, false, h.conflict, emitCall, h.conflicts,
        if r2.2.2 ≠ [] then h.conflict else false⟩
    | _, _ => ⟨st, [], false, false, none, [], false⟩

/-- An observable notification emitted to subscribers; `change` carries
the list of changed canonical keys. -/
inductive Event where
  | beforeChange
  | change (keys : List String)
  | connectedEvt
deriving DecidableEq

/-- The immediate-emission mode of `init_throttle_changes`: each
`emit_change` call fires one change event with exactly the given keys. -/
def emit_change_immediate (changed_keys : List String) : List Event :=
  [Event.change changed_keys]

/-- The key-accumulation step of the throttled mode of
`init_throttle_changes`: changed keys are added, deduplicated, to the
accumulator object. -/
def queue_changes (acc : List String) (changed_keys : List String) :
    List String :=
  changed_keys.foldl (fun a k => if k ∈ a then a else a ++ [k]) acc

/-- The flush `do_emit_changes` of the throttled mode: emit one change
event carrying all accumulated keys — even when none accumulated — and
reset the accumulator. -/
def do_emit_changes (acc : List String) : Event × List String :=
  (Event.change acc, [])

/-- A leading-edge throttled `emit_change` call (the underscore
`throttle` wrapper invokes the wrapped function immediately on the first
call of a window): queue the keys, then flush. -/
def emit_change_throttled (acc : List String) (changed_keys : List String) :
    Event × List String :=
  do_emit_changes (queue_changes acc changed_keys)

/-- One entry of the map returned by `_changes`: the key, its current
local value and the last known server value. -/
structure ChangeEntry where
  key : String
  new_val : Record
  old_val : Option Record
deriving DecidableEq

/-- The source `_changes`: every key whose local value differs from the
last known server value, with both values. -/
def changes_fn (L S : StateMap) : List ChangeEntry :=
  L.filterMap (fun e =>
    if rlookup S e.1 = some e.2 then none
    else some ⟨e.1, e.2, rlookup S e.1⟩)

/-- The server-advance loop of the `__save` success path: for each saved
change whose recorded server value still matches the value at save start,
advance the server value to the locally-saved one. -/
def advance_server (S : StateMap) (changed : List ChangeEntry) : StateMap :=
  changed.foldl
    (fun s c =>
      if rlookup s c.key = c.old_val then rinsert s c.key c.new_val else s)
    S

/-- The outcome of running `__save` to completion over a sequence of
mid-flight local edits. -/
structure SaveRun where
  finalLocal : StateMap
  finalServer : StateMap
  rounds : Nat
  lastAtStart : StateMap
deriving DecidableEq

/-- The `__save` success path run to completion: each round snapshots
`value_local` as `at_start`, computes the outbound diff, sends it, and on
acknowledgment advances the guarded server values; when the local state
changed during the round (the next element of `edits` replaces the local
state mid-flight), the save re-runs instead of reporting success.
Transport failures are not modelled: every issued write is acknowledged.
An unsettable table or an empty diff reports success without a write. -/
def save_loop (hasSet : Bool) : List StateMap → StateMap → StateMap → SaveRun
  | edits, L, S =>
    if hasSet = false then ⟨L, S, 1, L⟩
    else if changes_fn L S = [] then ⟨L, S, 1, L⟩
    else
      match edits with
      | [] => ⟨L, advance_server S (changes_fn L S), 1, L⟩
      | e :: rest =>
        let S2 := advance_server S (changes_fn L S)
        if e = L then ⟨L, S2, 1, L⟩
        else
          let r := save_loop hasSet rest e S2
          ⟨r.finalLocal, r.finalServer, r.rounds + 1, r.lastAtStart⟩

/-- The signal returned through the callback of `_save`. -/
inductive SaveSignal where
  | closedSig
  | alreadySaving
  | started
deriving DecidableEq

/-- The result of one `_save` request: the state after the request is
issued (with the single-flight flag taken), the number of transport write
calls issued, and the signal delivered. -/
structure SaveReq where
  st : SyncState
  writes : Nat
  signal : SaveSignal
deriving DecidableEq

/-- The number of transport write calls one `__save` round issues from
the given dual state: one when both states are known, the table is
settable and the outbound diff is nonempty; none otherwise. -/
def save_writes (sch : TableSchema) (st : SyncState) : Nat :=
  match st.value_local, st.value_server with
  | some L, some S =>
    if sch.has_set = false then 0
    else if changes_fn L S = [] then 0
    else 1
  | _, _ => 0

/-- The source `_save`: the single-flight wrapper around `__save`.  On a
closed table it reports closed; while a save is in flight it reports
already saving and issues nothing; otherwise it takes the flag and starts
`__save`, issuing its transport writes. -/
def save_request (sch : TableSchema) (st : SyncState) : SaveReq :=
  if st.state = ConnState.closed then ⟨st, 0, SaveSignal.closedSig⟩
  else if st.is_saving then ⟨st, 0, SaveSignal.alreadySaving⟩
  else ⟨{ st with is_saving := true }, save_writes sch st, SaveSignal.started⟩

/-- One step of the field loop of `__save` building a write record:
include the settable field `k` when its local value is non-null and it is
required or differs from the last known server value. -/
def build_obj_step (sch : TableSchema) (new_val : Record)
    (old_val : Option Record) (obj : Record) (k : String) : Record :=
  match rlookup new_val k with
  | none => obj
  | some v =>
    if k ∈ sch.required_set_fields ∨ olookup old_val k ≠ some v then
      rinsert obj k v
    else obj

/-- Whether the field loop of `__save` includes field `g` in the write
record: its local value is non-null and it is a required field or its
local value differs from the last known server value. -/
def includeField (sch : TableSchema) (new_val : Record)
    (old_val : Option Record) (g : String) : Bool :=
  match rlookup new_val g with
  | some v =>
    decide (g ∈ sch.required_set_fields) || decide (olookup old_val g ≠ some v)
  | none => false

/-- One outbound write record of `__save` for a single-primary-key table:
start from the primary-key field set to the canonical key string, then
run the field loop over the settable fields. -/
def build_obj (sch : TableSchema) (key : String) (new_val : Record)
    (old_val : Option Record) : Record :=
  sch.set_fields.foldl (build_obj_step sch new_val old_val)
    [(sch.pk, Value.vstr key)]

/-- Association-list lookup for arbitrary key types, used by the
process-wide registry object. -/
def alookup [DecidableEq κ] : List (κ × β) → κ → Option β
  | [], _ => none
  | (k1, v1) :: t, k => if k = k1 then some v1 else alookup t k

/-- Association-list store for arbitrary key types: replace in place or
append (javascript object property assignment). -/
def aupdate [DecidableEq κ] : List (κ × β) → κ → β → List (κ × β)
  | [], k, v => [(k, v)]
  | (k1, v1) :: t, k, v =>
    if k = k1 then (k, v) :: t else (k1, v1) :: aupdate t k v

/-- The canonical signature of a registry entry; `cache_key` in the
source is the stable stringification of these four components. -/
structure Sig where
  query : List (String × Value)
  options : List Value
  debounce_interval : Nat
  throttle_changes : Option Nat
deriving DecidableEq

/-- One cached engine instance as the registry sees it: its identity,
its connection state and its reference count. -/
structure RegEntry where
  id : Nat
  state : ConnState
  reference_count : Nat
deriving DecidableEq

/-- A notification synthesized by the registry. -/
inductive RegEvent where
  | connectedNotify (id : Nat)
deriving DecidableEq

/-- The result of one `sync_table` registry request. -/
structure RegResult where
  registry : List (Sig × RegEntry)
  instanceId : Nat
  refCount : Nat
  events : List RegEvent
deriving DecidableEq

/-- The source `sync_table` with the cache enabled: a request for a
cached signature returns the same instance with its reference count
incremented, synthesizing an immediate connected notification when that
instance is already connected; a first request constructs a fresh
instance (initially disconnected) with reference count one. -/
def sync_table_req (reg : List (Sig × RegEntry)) (sig : Sig)
    (freshId : Nat) : RegResult :=
  match alookup reg sig with
  | some S =>
    ⟨aupdate reg sig ⟨S.id, S.state, S.reference_count + 1⟩, S.id,
      S.reference_count + 1,
      if S.state = ConnState.connected then [RegEvent.connectedNotify S.id]
      else []⟩
  | none =>
    ⟨aupdate reg sig ⟨freshId, ConnState.disconnected, 1⟩, freshId, 1, []⟩

/-- The source `global_cache_decref`: decrement the reference count; at
zero the instance is evicted from the registry and the call reports that
the table is no longer in use (so the caller proceeds to close it). -/
def global_cache_decref (reg : List (Sig × RegEntry)) (sig : Sig) :
    List (Sig × RegEntry) × Bool :=
  match alookup reg sig with
  | some S =>
    if S.reference_count - 1 = 0 then
      (reg.filter (fun e => e.1 ≠ sig), false)
    else
      (aupdate reg sig ⟨S.id, S.state, S.reference_count - 1⟩, true)
  | none => (reg, false)

/-- The three merge strategies of `set`. -/
inductive MergeStrategy where
  | deep
  | shallow
  | nomerge
deriving DecidableEq

mutual

/-- immutable.js `mergeDeep` of an update value into a base value: maps
merge recursively, anything else is overwritten by the update. -/
def mergeDeepValue : Value → Value → Value
  | .vobj a, .vobj b => .vobj (mergeDeepFields a b)
  | _, b => b
termination_by structural _a b => b

/-- immutable.js `mergeDeep` of update fields into base fields. -/
def mergeDeepFields : List (String × Value) → List (String × Value) →
    List (String × Value)
  | a, [] => a
  | a, (k, v) :: t =>
    mergeDeepFields
      (match rlookup a k with
       | some old => rinsert a k (mergeDeepValue old v)
       | none => rinsert a k v) t
termination_by structural _a b => b

end

/-- immutable.js `merge` (shallow): field-level overwrite only. -/
def mergeShallowFields (a b : List (String × Value)) :
    List (String × Value) :=
  b.foldl (fun acc e => rinsert acc e.1 e.2) a

/-- The signal returned through the callback of `set`. -/
inductive SetSignal where
  | ok
  | closedSig
  | notAllowed (field : String)
  | noPrimaryKey
  | missingRequired (field : String)
  | tableNotSettable
deriving DecidableEq

/-- The result of a `set` call: the updated state, the `emit_change`
invocation when one is made, whether `save` was invoked, the callback
signal, and the merged value returned. -/
structure SetResult where
  st : SyncState
  emitCall : Option (List String)
  saveCalled : Bool
  signal : SetSignal
  returned : Option Record
deriving DecidableEq

/-- The source `set` for a single-primary-key table: reject on a closed
table or a non-settable field; resolve the target key from the input, a
computed primary key (`cpk`), or any existing key; require the
required-on-create fields for a brand-new key; merge with the chosen
strategy; and only when the merged value differs from the current one,
store it, invoke `save` and emit a change for that key. -/
def set_op (sch : TableSchema) (cpk : Option (Record → Value))
    (st : SyncState) (changes0 : Record) (merge : MergeStrategy) :
    SetResult :=
  if st.state = ConnState.closed then ⟨st, none, false, .closedSig, none⟩
  else
    let L0 := match st.value_local with | some l => l | none => []
    let st1 : SyncState := ⟨st.state, some L0, st.value_server, st.is_saving⟩
    if sch.has_set = false then ⟨st1, none, false, .tableNotSettable, none⟩
    else
      match changes0.find? (fun e => decide (e.1 ∉ sch.set_fields)) with
      | some e => ⟨st1, none, false, .notAllowed e.1, none⟩
      | none =>
        let idOpt : Option (String × Record) :=
          match tkey sch.pk changes0 with
          | some i => some (i, changes0)
          | none =>
            match cpk with
            | some f => some (toKey (f changes0),
                rinsert changes0 sch.pk (f changes0))
            | none =>
              match L0 with
              | (k0, _) :: _ =>
                some (k0, rinsert changes0 sch.pk (Value.vstr k0))
              | [] => none
        match idOpt with
        | none => ⟨st1, none, false, .noPrimaryKey, none⟩
        | some (id, changes) =>
          match rlookup L0 id with
          | none =>
            match sch.required_set_fields.find?
                (fun k => decide (rlookup changes k = none)) with
            | some k => ⟨st1, none, false, .missingRequired k, none⟩
            | none =>
              ⟨⟨st.state, some (rinsert L0 id changes), st.value_server,
                  st.is_saving⟩,
                some [id], true, .ok, some changes⟩
          | some cur =>
            let new_val := match merge with
              | .deep => mergeDeepFields cur changes
              | .shallow => mergeShallowFields cur changes
              | .nomerge => changes
            if new_val = cur then ⟨st1, none, false, .ok, some new_val⟩
            else
              ⟨⟨st.state, some (rinsert L0 id new_val), st.value_server,
                  st.is_saving⟩,
                some [id], true, .ok, some new_val⟩

/-! Helper lemmas about the association-list embedding. -/

theorem strLtAux_irrefl (l : List Char) : strLtAux l l = false := by
  induction l with
  | nil => rfl
  | cons a as ih => simp [strLtAux, ih]

theorem strLtAux_trans (a b c : List Char) (h1 : strLtAux a b = true)
    (h2 : strLtAux b c = true) : strLtAux a c = true := by
  induction a generalizing b c with
  | nil =>
    cases b with
    | nil => simp [strLtAux] at h1
    | cons bh bt =>
      cases c with
      | nil => simp [strLtAux] at h2
      | cons ch ct => simp [strLtAux]
  | cons ah arest ih =>
    cases b with
    | nil => simp [strLtAux] at h1
    | cons bh bt =>
      cases c with
      | nil => simp [strLtAux] at h2
      | cons ch ct =>
        simp only [strLtAux] at h1 h2 ⊢
        by_cases g1 : ah.toNat < bh.toNat
        · by_cases g2 : bh.toNat < ch.toNat
          · simp [Nat.lt_trans g1 g2]
          · by_cases g3 : ch.toNat < bh.toNat
            · simp [g2, g3] at h2
            · have hbc : bh.toNat = ch.toNat :=
                Nat.le_antisymm (Nat.not_lt.mp g3) (Nat.not_lt.mp g2)
              simp [hbc ▸ g1]
        · by_cases g4 : bh.toNat < ah.toNat
          · simp [g1, g4] at h1
          · have hab : ah.toNat = bh.toNat :=
              Nat.le_antisymm (Nat.not_lt.mp g4) (Nat.not_lt.mp g1)
            by_cases g2 : bh.toNat < ch.toNat
            · simp [hab ▸ g2]
            · by_cases g3 : ch.toNat < bh.toNat
              · simp [g2, g3] at h2
              · have hbc : bh.toNat = ch.toNat :=
                  Nat.le_antisymm (Nat.not_lt.mp g3) (Nat.not_lt.mp g2)
                have hac : ¬ ah.toNat < ch.toNat := by
                  rw [hab, hbc]; exact Nat.lt_irrefl _
                have hca : ¬ ch.toNat < ah.toNat := by
                  rw [hab, hbc]; exact Nat.lt_irrefl _
                simp only [g1, g4, if_neg, if_false] at h1
                simp only [g2, g3, if_neg, if_false] at h2
                simp [hac, hca, ih bt ct h1 h2]

theorem char_eq_of_toNat (a b : Char) (h : a.toNat = b.toNat) : a = b :=
  Char.eq_of_val_eq (UInt32.toNat.inj h)

theorem strLtAux_eq (a : List Char) : ∀ b, strLtAux a b = false →
    strLtAux b a = false → a = b := by
  induction a with
  | nil =>
    intro b h1 h2
    cases b with
    | nil => rfl
    | cons bh bt => simp [strLtAux] at h1
  | cons ah arest ih =>
    intro b h1 h2
    cases b with
    | nil => simp [strLtAux] at h2
    | cons bh bt =>
      simp only [strLtAux] at h1 h2
      by_cases g1 : ah.toNat < bh.toNat
      · simp [g1] at h1
      · by_cases g2 : bh.toNat < ah.toNat
        · simp [g1, g2] at h2
        · have hab : ah.toNat = bh.toNat :=
            Nat.le_antisymm (Nat.not_lt.mp g2) (Nat.not_lt.mp g1)
          simp only [g1, g2, if_neg, if_false] at h1 h2
          rw [char_eq_of_toNat ah bh hab, ih bt h1 h2]

theorem strLt_irrefl (a : String) : strLt a a = false := strLtAux_irrefl a.data

theorem strLt_trans (a b c : String) (h1 : strLt a b = true)
    (h2 : strLt b c = true) : strLt a c = true :=
  strLtAux_trans a.data b.data c.data h1 h2

theorem strLt_eq (a b : String) (h1 : strLt a b = false)
    (h2 : strLt b a = false) : a = b := by
  have hd : a.data = b.data := strLtAux_eq a.data b.data h1 h2
  cases a; cases b; simp_all

theorem strLt_asymm (a b : String) (h : strLt a b = true) :
    strLt b a = false := by
  by_contra hc
  have h2 : strLt b a = true := by
    cases hb : strLt b a
    · exact absurd hb hc
    · rfl
  have := strLt_trans a b a h h2
  rw [strLt_irrefl] at this
  exact Bool.false_ne_true this

theorem strLt_total (a b : String) (h1 : strLt a b = false)
    (hne : a ≠ b) : strLt b a = true := by
  cases hb : strLt b a
  · exact absurd (strLt_eq a b h1 hb) hne
  · rfl

theorem ne_of_strLt (a b : String) (h : strLt a b = true) : a ≠ b := by
  intro hc
  subst hc
  rw [strLt_irrefl] at h
  exact Bool.false_ne_true h

theorem rlookup_rinsert_self (l : List (String × α)) (k : String) (v : α) :
    rlookup (rinsert l k v) k = some v := by
  induction l with
  | nil => simp [rinsert, rlookup]
  | cons h t ih =>
    obtain ⟨k1, v1⟩ := h
    by_cases h1 : strLt k k1 = true
    · simp [rinsert, h1, rlookup]
    · by_cases h2 : k = k1
      · simp [rinsert, h1, h2, rlookup, strLt_irrefl]
      · simp [rinsert, h1, h2, rlookup, ih]

theorem rlookup_rinsert_ne (l : List (String × α)) (k k2 : String) (v : α)
    (hne : k2 ≠ k) : rlookup (rinsert l k v) k2 = rlookup l k2 := by
  induction l with
  | nil => simp [rinsert, rlookup, hne]
  | cons h t ih =>
    obtain ⟨k1, v1⟩ := h
    by_cases h1 : strLt k k1 = true
    · simp [rinsert, h1, rlookup, hne]
    · by_cases h2 : k = k1
      · subst h2
        simp [rinsert, h1, rlookup, hne]
      · by_cases h3 : k2 = k1
        · simp [rinsert, h1, h2, rlookup, h3]
        · simp [rinsert, h1, h2, rlookup, h3, ih]

theorem rlookup_rerase_self (l : List (String × α)) (k : String) :
    rlookup (rerase l k) k = none := by
  induction l with
  | nil => simp [rerase, rlookup]
  | cons h t ih =>
    obtain ⟨k1, v1⟩ := h
    by_cases h1 : k1 = k
    · simpa [rerase, h1] using ih
    · have hne : k ≠ k1 := fun hc => h1 hc.symm
      simpa [rerase, h1, rlookup, hne] using ih

theorem rlookup_rerase_ne (l : List (String × α)) (k k2 : String)
    (hne : k2 ≠ k) : rlookup (rerase l k) k2 = rlookup l k2 := by
  induction l with
  | nil => simp [rerase, rlookup]
  | cons h t ih =>
    obtain ⟨k1, v1⟩ := h
    by_cases h1 : k1 = k
    · subst h1
      simpa [rerase, rlookup, hne] using ih
    · by_cases h3 : k2 = k1
      · simp [rerase, h1, rlookup, h3]
      · simpa [rerase, h1, rlookup, h3] using ih

theorem mem_rinsert (l : List (String × α)) (k : String) (v : α)
    (b : String × α) (hb : b ∈ rinsert l k v) : b = (k, v) ∨ b ∈ l := by
  induction l with
  | nil => simpa [rinsert] using hb
  | cons hd t ih =>
    obtain ⟨k1, v1⟩ := hd
    by_cases h1 : strLt k k1 = true
    · simp only [rinsert, if_pos h1, List.mem_cons] at hb ⊢
      tauto
    · by_cases h2 : k = k1
      · simp only [rinsert, if_neg h1, if_pos h2, List.mem_cons] at hb ⊢
        tauto
      · simp only [rinsert, if_neg h1, if_neg h2, List.mem_cons] at hb ⊢
        rcases hb with hb | hb
        · tauto
        · rcases ih hb with hc | hc
          · tauto
          · tauto

theorem canon_rinsert (l : List (String × α)) (k : String) (v : α)
    (h : Canon l) : Canon (rinsert l k v) := by
  induction l with
  | nil => simp [rinsert, Canon]
  | cons hd t ih =>
    obtain ⟨k1, v1⟩ := hd
    simp only [Canon, List.pairwise_cons] at h
    obtain ⟨hall, ht⟩ := h
    by_cases h1 : strLt k k1 = true
    · simp only [Canon, rinsert, if_pos h1, List.pairwise_cons]
      refine ⟨?_, ?_⟩
      · intro b hb
        rcases List.mem_cons.mp hb with hb | hb
        · rw [hb]; exact h1
        · exact strLt_trans _ _ _ h1 (hall b hb)
      · exact ⟨fun b hb => hall b hb, ht⟩
    · by_cases h2 : k = k1
      · subst h2
        have he : rinsert ((k, v1) :: t) k v = (k, v) :: t := by
          simp [rinsert, h1]
        simp only [Canon, he, List.pairwise_cons]
        exact ⟨fun b hb => hall b hb, ht⟩
      · have hk1k : strLt k1 k = true :=
          strLt_total k k1 (by simpa using h1) h2
        simp only [Canon, rinsert, if_neg h1, if_neg h2, List.pairwise_cons]
        refine ⟨?_, ih ht⟩
        intro b hb
        rcases mem_rinsert t k v b hb with hb2 | hb2
        · rw [hb2]; exact hk1k
        · exact hall b hb2

theorem canon_rerase (l : List (String × α)) (k : String)
    (h : Canon l) : Canon (rerase l k) :=
  List.Pairwise.sublist (List.filter_sublist l) h

theorem canon_lookup_of_mem (l : List (String × α)) (k : String) (v : α)
    (h : Canon l) (hm : (k, v) ∈ l) : rlookup l k = some v := by
  induction l with
  | nil => simp at hm
  | cons hd t ih =>
    obtain ⟨k1, v1⟩ := hd
    simp only [Canon, List.pairwise_cons] at h
    obtain ⟨hall, ht⟩ := h
    rcases List.mem_cons.mp hm with hm | hm
    · injection hm with ha hb
      simp [rlookup, ha, hb]
    · have hk : strLt k1 k = true := hall (k, v) hm
      have hne : k ≠ k1 := (ne_of_strLt k1 k hk).symm
      simpa [rlookup, hne] using ih ht hm

theorem mem_of_rlookup (l : List (String × α)) (k : String) (v : α)
    (hl : rlookup l k = some v) : (k, v) ∈ l := by
  induction l with
  | nil => simp [rlookup] at hl
  | cons hd t ih =>
    obtain ⟨k1, v1⟩ := hd
    by_cases h1 : k = k1
    · simp only [rlookup, if_pos h1] at hl
      injection hl with hv
      simp [h1, hv]
    · simp only [rlookup, if_neg h1] at hl
      simp [ih hl]

theorem rinsert_self (l : List (String × α)) (k : String) (v : α)
    (h : Canon l) (hl : rlookup l k = some v) : rinsert l k v = l := by
  induction l with
  | nil => simp [rlookup] at hl
  | cons hd t ih =>
    obtain ⟨k1, v1⟩ := hd
    simp only [Canon, List.pairwise_cons] at h
    obtain ⟨hall, ht⟩ := h
    by_cases h1 : k = k1
    · simp only [rlookup, if_pos h1] at hl
      injection hl with hv
      simp [rinsert, h1, hv, strLt_irrefl]
    · simp only [rlookup, if_neg h1] at hl
      have hk : strLt k1 k = true := hall (k, v) (mem_of_rlookup t k v hl)
      have h2 : strLt k k1 = false := strLt_asymm k1 k hk
      simp [rinsert, h1, h2, ih ht hl]
theorem alookup_aupdate_self [DecidableEq κ] (l : List (κ × β)) (k : κ)
    (v : β) : alookup (aupdate l k v) k = some v := by
  induction l with
  | nil => simp [aupdate, alookup]
  | cons hd t ih =>
    obtain ⟨k1, v1⟩ := hd
    by_cases h1 : k = k1
    · simp [aupdate, h1, alookup]
    · simp [aupdate, h1, alookup, ih]

/-- C2: counterexample to the claimed conflict detection.  In the claimed
scenario — the local record `x` has an unsaved edit `f = A`, the last
recorded server value of `f` is `C`, and the changefeed then delivers `x`
with `f = B` — processing the incremental update emits NO conflict event
and schedules NO re-save, while the claim asserts a conflict event with
payload new value `B` and old value `A` plus a forced re-save. -/
theorem c2_counterexample :
    let r := update_change ⟨"id", ["f"], [], true⟩
      ⟨ConnState.connected,
        some [("x", [("f", Value.vstr "A"), ("id", Value.vstr "x")])],
        some [("x", [("f", Value.vstr "C"), ("id", Value.vstr "x")])],
        false⟩
      ⟨some [("f", Value.vstr "B"), ("id", Value.vstr "x")], none⟩
    r.conflicts = [] ∧ r.saveTriggered = false := by
  decide

/-- C2 (amended): in the scenario where record `x` has an unsaved local
value `f = A`, the last recorded server value of `f` is `C`, and the
changefeed delivers `x` with `f = B`, the incremental update overwrites
the local edit: the local value of `f` becomes `B`, a change notification
for `x` fires, no conflict event is emitted, no re-save is scheduled, and
the recorded server value advances to the incoming record. -/
theorem c2_amended :
    update_change ⟨"id", ["f"], [], true⟩
      ⟨ConnState.connected,
        some [("x", [("f", Value.vstr "A"), ("id", Value.vstr "x")])],
        some [("x", [("f", Value.vstr "C"), ("id", Value.vstr "x")])],
        false⟩
      ⟨some [("f", Value.vstr "B"), ("id", Value.vstr "x")], none⟩ =
    ⟨⟨ConnState.connected,
        some [("x", [("f", Value.vstr "B"), ("id", Value.vstr "x")])],
        some [("x", [("f", Value.vstr "B"), ("id", Value.vstr "x")])],
        false⟩,
      ["x"], false, false, some ["x"], [], false⟩ := by
  decide

/-- C4: single-flight save.  While a save is in flight the flag
`__is_saving` makes any further request a no-op returning the already
saving signal; so of two overlapping requests on a non-closed, dirty,
not-yet-saving table, the first issues exactly one transport write and
the second issues none, returns the already-saving signal and leaves the
state untouched. -/
theorem c4_single_flight (sch : TableSchema) (st : SyncState)
    (hst : st.state ≠ ConnState.closed) (hfree : st.is_saving = false)
    (hw : save_writes sch st = 1) :
    (save_request sch st).signal = SaveSignal.started ∧
    (save_request sch st).writes = 1 ∧
    (save_request sch (save_request sch st).st).signal =
      SaveSignal.alreadySaving ∧
    (save_request sch (save_request sch st).st).writes = 0 ∧
    (save_request sch (save_request sch st).st).st =
      (save_request sch st).st := by
  simp [save_request, hst, hfree, hw]

theorem c4_single_flight_witness :
    (save_request ⟨"id", ["f"], [], true⟩
      ⟨ConnState.connected,
        some [("x", [("f", Value.vstr "B"), ("id", Value.vstr "x")])],
        some [("x", [("f", Value.vstr "A"), ("id", Value.vstr "x")])],
        false⟩).signal = SaveSignal.started ∧
    (save_request ⟨"id", ["f"], [], true⟩
      (save_request ⟨"id", ["f"], [], true⟩
        ⟨ConnState.connected,
          some [("x", [("f", Value.vstr "B"), ("id", Value.vstr "x")])],
          some [("x", [("f", Value.vstr "A"), ("id", Value.vstr "x")])],
          false⟩).st).signal = SaveSignal.alreadySaving := by
  refine ⟨(c4_single_flight _ _ (by decide) (by decide) (by decide)).1,
    (c4_single_flight _ _ (by decide) (by decide) (by decide)).2.2.1⟩

/-- C6: on the very first connection, adopting an empty server snapshot
still calls `emit_change` exactly once with an empty key list, and in
both emitter modes that single call yields exactly one change event
carrying the empty key list (the throttled flush fires even with no
accumulated keys). -/
theorem c6_first_connection_empty (sch : TableSchema) (st : SyncState)
    (hst : st.state ≠ ConnState.closed) (hL : st.value_local = none) :
    (update_all sch st (some [])).emitCall = some [] ∧
    (update_all sch st (some [])).firstConnect = true ∧
    (update_all sch st (some [])).pushed = [] ∧
    emit_change_immediate [] = [Event.change []] ∧
    emit_change_throttled [] [] = (Event.change [], []) := by
  cases hs : st.value_server with
  | none =>
    refine ⟨?_, ?_, ?_, rfl, rfl⟩ <;>
      simp [update_all, hst, hL, hs, buildX]
  | some S =>
    refine ⟨?_, ?_, ?_, rfl, rfl⟩ <;>
      simp [update_all, hst, hL, hs, buildX]

theorem c6_first_connection_empty_witness :
    (update_all ⟨"id", ["f"], [], true⟩
      ⟨ConnState.connected, none, none, false⟩ (some [])).emitCall =
      some [] ∧
    emit_change_throttled [] [] = (Event.change [], []) :=
  ⟨(c6_first_connection_empty ⟨"id", ["f"], [], true⟩
      ⟨ConnState.connected, none, none, false⟩ (by decide) rfl).1,
    (c6_first_connection_empty ⟨"id", ["f"], [], true⟩
      ⟨ConnState.connected, none, none, false⟩ (by decide) rfl).2.2.2.2⟩

/-- C8: a second registry request with the same canonical signature
returns the same engine instance with its reference count incremented by
one, and when that instance is already connected an immediate connected
notification is synthesized for the new caller (and none otherwise). -/
theorem c8_registry_second_request (reg : List (Sig × RegEntry)) (sig : Sig)
    (S : RegEntry) (freshId : Nat) (hS : alookup reg sig = some S) :
    (sync_table_req reg sig freshId).instanceId = S.id ∧
    (sync_table_req reg sig freshId).refCount = S.reference_count + 1 ∧
    alookup (sync_table_req reg sig freshId).registry sig =
      some ⟨S.id, S.state, S.reference_count + 1⟩ ∧
    (S.state = ConnState.connected →
      (sync_table_req reg sig freshId).events =
        [RegEvent.connectedNotify S.id]) ∧
    (S.state ≠ ConnState.connected →
      (sync_table_req reg sig freshId).events = []) := by
  refine ⟨?_, ?_, ?_, ?_, ?_⟩
  · simp [sync_table_req, hS]
  · simp [sync_table_req, hS]
  · simp [sync_table_req, hS, alookup_aupdate_self]
  · intro h
    simp [sync_table_req, hS, h]
  · intro h
    simp [sync_table_req, hS, h]

theorem c8_registry_second_request_witness :
    (sync_table_req [(⟨[("t", Value.vstr "q")], [], 2000, none⟩,
        ⟨7, ConnState.connected, 1⟩)]
      ⟨[("t", Value.vstr "q")], [], 2000, none⟩ 99).instanceId = 7 ∧
    (sync_table_req [(⟨[("t", Value.vstr "q")], [], 2000, none⟩,
        ⟨7, ConnState.connected, 1⟩)]
      ⟨[("t", Value.vstr "q")], [], 2000, none⟩ 99).events =
      [RegEvent.connectedNotify 7] :=
  ⟨(c8_registry_second_request _ _ ⟨7, ConnState.connected, 1⟩ 99
      (by decide)).1,
    (c8_registry_second_request _ _ ⟨7, ConnState.connected, 1⟩ 99
      (by decide)).2.2.2.1 rfl⟩

/-- C9: an incremental changefeed update whose old value has a canonical
key different from the new value's key (a key-identity change, i.e. a
delete of the old record) removes the old key unconditionally from both
the local and the server state — nothing is assumed about the local copy,
so pending unsaved edits are deleted too — and that key is part of the
emitted change notification. -/
theorem c9_key_change_delete (sch : TableSchema) (st : SyncState)
    (L S : StateMap) (cnew : Option Record) (ov : Record) (k : String)
    (hst : st.state ≠ ConnState.closed)
    (hL : st.value_local = some L) (hS : st.value_server = some S)
    (hk : tkey sch.pk ov = some k)
    (hne : keyOfOpt sch.pk cnew ≠ some k) :
    let r := update_change sch st ⟨cnew, some ov⟩
    ∃ L2 S2, r.st.value_local = some L2 ∧ r.st.value_server = some S2 ∧
      rlookup L2 k = none ∧ rlookup S2 k = none ∧
      k ∈ r.pushed ∧ r.emitCall = some r.pushed := by
  intro r
  have hko : keyOfOpt sch.pk (some ov) = some k := by
    simp [keyOfOpt, hk]
  have hpos : (some k : Option String) ≠ keyOfOpt sch.pk cnew :=
    fun hc => hne hc.symm
  have hr : r = update_change sch st ⟨cnew, some ov⟩ := rfl
  rw [update_change] at hr
  rw [if_neg hst, hL, hS] at hr
  simp only [hko, Option.isSome_some, true_and, ne_eq, hpos,
    not_false_iff, if_pos] at hr
  refine ⟨_, _, by rw [hr], by rw [hr], rlookup_rerase_self _ _,
    rlookup_rerase_self _ _, by rw [hr]; simp, by rw [hr]; simp⟩

theorem c9_key_change_delete_witness :
    let r := update_change ⟨"id", ["f"], [], true⟩
      ⟨ConnState.connected,
        some [("x", [("f", Value.vstr "EDITED"), ("id", Value.vstr "x")])],
        some [("x", [("f", Value.vstr "C"), ("id", Value.vstr "x")])],
        false⟩
      ⟨none, some [("f", Value.vstr "C"), ("id", Value.vstr "x")]⟩
    ∃ L2 S2, r.st.value_local = some L2 ∧ r.st.value_server = some S2 ∧
      rlookup L2 "x" = none ∧ rlookup S2 "x" = none ∧
      "x" ∈ r.pushed ∧ r.emitCall = some r.pushed :=
  c9_key_change_delete ⟨"id", ["f"], [], true⟩ _ _ _ none
    [("f", Value.vstr "C"), ("id", Value.vstr "x")] "x"
    (by decide) rfl rfl (by decide) (by decide)

theorem build_obj_foldl_lookup (sch : TableSchema) (new_val : Record)
    (old_val : Option Record) (fields : List String) (acc : Record)
    (g : String) :
    rlookup (fields.foldl (build_obj_step sch new_val old_val) acc) g =
      if g ∈ fields ∧ includeField sch new_val old_val g = true
      then rlookup new_val g
      else rlookup acc g := by
  induction fields generalizing acc with
  | nil => simp
  | cons f fs ih =>
    rw [List.foldl_cons, ih]
    by_cases hgf : g = f
    · subst hgf
      cases hv : rlookup new_val g with
      | none =>
        have hinc : includeField sch new_val old_val g = false := by
          simp [includeField, hv]
        simp [build_obj_step, hv, hinc]
      | some v =>
        by_cases hcond : g ∈ sch.required_set_fields ∨
            olookup old_val g ≠ some v
        · have hinc : includeField sch new_val old_val g = true := by
            rcases hcond with hc | hc
            · simp [includeField, hv, hc]
            · simp [includeField, hv, hc]
          simp [build_obj_step, hv, hcond, hinc, rlookup_rinsert_self]
        · have hinc : includeField sch new_val old_val g = false := by
            push_neg at hcond
            simp [includeField, hv, hcond.1, hcond.2]
          simp [build_obj_step, hv, hcond, hinc]
    · have hstep : rlookup (build_obj_step sch new_val old_val acc f) g =
          rlookup acc g := by
        rw [build_obj_step]
        cases hv : rlookup new_val f with
        | none => rfl
        | some v =>
          by_cases hcond : f ∈ sch.required_set_fields ∨
              olookup old_val f ≠ some v
          · simp only [if_pos hcond]
            exact rlookup_rinsert_ne acc f g v hgf
          · simp only [if_neg hcond]
      rw [hstep]
      simp [List.mem_cons, hgf]

/-- C7: counterexample.  With schema primary key `id`, settable fields
`[f]` and no required fields, take the dirty key `x` whose local value is
`f = 1, id = x` and whose last server value is `f = 2, id = x`.  The
write record built for `x` contains the field `id` although `id` is not a
required field and its local value equals the last known server value —
refuting the claim that a field is included only if it is required or its
local value differs from the last known server value. -/
theorem c7_counterexample :
    let obj := build_obj ⟨"id", ["f"], [], true⟩ "x"
      [("f", Value.vstr "1"), ("id", Value.vstr "x")]
      (some [("f", Value.vstr "2"), ("id", Value.vstr "x")])
    rlookup obj "id" = some (Value.vstr "x") ∧
    "id" ∉ (⟨"id", ["f"], [], true⟩ : TableSchema).required_set_fields ∧
    rlookup [("f", Value.vstr "1"), ("id", Value.vstr "x")] "id" =
      rlookup [("f", Value.vstr "2"), ("id", Value.vstr "x")] "id" := by
  decide

/-- C7 (amended): for every dirty key of an outbound save, the write
record always contains the primary-key field; every other field is
included exactly when it is a settable field whose local value is
non-null and it is a required field or its local value differs from the
last known server value for that field (`includeField`).  Fields
unchanged since the last sync and fields outside the settable set are
omitted. -/
theorem c7_amended (sch : TableSchema) (key : String) (new_val : Record)
    (old_val : Option Record) :
    (rlookup (build_obj sch key new_val old_val) sch.pk).isSome = true ∧
    ∀ g, g ≠ sch.pk →
      rlookup (build_obj sch key new_val old_val) g =
        (if g ∈ sch.set_fields ∧ includeField sch new_val old_val g = true
         then rlookup new_val g
         else none) := by
  constructor
  · rw [build_obj, build_obj_foldl_lookup]
    by_cases hc : sch.pk ∈ sch.set_fields ∧
        includeField sch new_val old_val sch.pk = true
    · rw [if_pos hc]
      obtain ⟨hmem, hinc⟩ := hc
      rw [includeField] at hinc
      cases hv : rlookup new_val sch.pk with
      | none => rw [hv] at hinc; simp at hinc
      | some v => simp [hv]
    · rw [if_neg hc]
      simp [rlookup]
  · intro g hg
    rw [build_obj, build_obj_foldl_lookup]
    by_cases hc : g ∈ sch.set_fields ∧
        includeField sch new_val old_val g = true
    · rw [if_pos hc, if_pos hc]
    · rw [if_neg hc, if_neg hc]
      simp [rlookup, hg]

theorem c7_amended_witness :
    ("f" : String) ≠ "id" ∧
    rlookup (build_obj ⟨"id", ["f"], [], true⟩ "x"
      [("f", Value.vstr "1"), ("id", Value.vstr "x")]
      (some [("f", Value.vstr "2"), ("id", Value.vstr "x")])) "f" =
      some (Value.vstr "1") := by
  refine ⟨by decide, ?_⟩
  have h := (c7_amended ⟨"id", ["f"], [], true⟩ "x"
    [("f", Value.vstr "1"), ("id", Value.vstr "x")]
    (some [("f", Value.vstr "2"), ("id", Value.vstr "x")])).2 "f" (by decide)
  rw [h]
  decide

/-- C10: a `set` call whose merged next value under the chosen merge
strategy equals the record's current local value changes nothing: the
engine state is left untouched, no change notification is emitted, no
save is triggered, the callback reports no error, and the unchanged
merged value is returned. -/
theorem c10_set_noop (sch : TableSchema) (cpk : Option (Record → Value))
    (st : SyncState) (changes : Record) (merge : MergeStrategy)
    (L : StateMap) (id : String) (cur : Record)
    (hst : st.state ≠ ConnState.closed)
    (hset : sch.has_set = true)
    (hfields : ∀ e ∈ changes, e.1 ∈ sch.set_fields)
    (hL : st.value_local = some L)
    (hid : tkey sch.pk changes = some id)
    (hcur : rlookup L id = some cur)
    (hmerge : (match merge with
               | MergeStrategy.deep => mergeDeepFields cur changes
               | MergeStrategy.shallow => mergeShallowFields cur changes
               | MergeStrategy.nomerge => changes) = cur) :
    set_op sch cpk st changes merge = ⟨st, none, false, SetSignal.ok, some cur⟩ := by
  obtain ⟨cstate, clocal, cserver, csaving⟩ := st
  simp only at hst hL
  subst hL
  have hfind : changes.find? (fun e => decide (e.1 ∉ sch.set_fields)) = none := by
    rw [List.find?_eq_none]
    intro e he
    simp [hfields e he]
  rw [set_op]
  rw [if_neg hst]
  simp only [hset, hfind, hid, hcur, hmerge]
  simp

theorem c10_set_noop_witness :
    set_op ⟨"id", ["f", "id"], [], true⟩ none
      ⟨ConnState.connected,
        some [("x", [("f", Value.vstr "A"), ("id", Value.vstr "x")])],
        some [("x", [("f", Value.vstr "A"), ("id", Value.vstr "x")])],
        false⟩
      [("f", Value.vstr "A"), ("id", Value.vstr "x")] MergeStrategy.deep =
    ⟨⟨ConnState.connected,
        some [("x", [("f", Value.vstr "A"), ("id", Value.vstr "x")])],
        some [("x", [("f", Value.vstr "A"), ("id", Value.vstr "x")])],
        false⟩,
      none, false, SetSignal.ok,
      some [("f", Value.vstr "A"), ("id", Value.vstr "x")]⟩ :=
  c10_set_noop ⟨"id", ["f", "id"], [], true⟩ none _
    [("f", Value.vstr "A"), ("id", Value.vstr "x")] MergeStrategy.deep
    [("x", [("f", Value.vstr "A"), ("id", Value.vstr "x")])] "x"
    [("f", Value.vstr "A"), ("id", Value.vstr "x")]
    (by decide) rfl (by decide) rfl (by decide) (by decide) (by decide)

theorem rlookup_eq_none_of_all_ne (l : List (String × α)) (g : String)
    (h : ∀ p ∈ l, p.1 ≠ g) : rlookup l g = none := by
  induction l with
  | nil => rfl
  | cons e t ih =>
    obtain ⟨k, v⟩ := e
    have hk : k ≠ g := h (k, v) (List.mem_cons_self _ _)
    have hg : g ≠ k := fun hc => hk hc.symm
    simp only [rlookup, if_neg hg]
    exact ih (fun p hp => h p (List.mem_cons_of_mem _ hp))

theorem applyPatch_cons (sOpt : Option Record) (local_val : Record)
    (k : String) (v : Value) (t : Record) :
    applyPatch sOpt local_val ((k, v) :: t) =
      applyPatch sOpt
        (if olookup sOpt k = some v then local_val else rinsert local_val k v)
        t := by
  rw [applyPatch, applyPatch, List.foldl_cons]

theorem applyPatch_lookup_notin (sOpt : Option Record) (new_val : Record)
    (local_val : Record) (g : String) (h : rlookup new_val g = none) :
    rlookup (applyPatch sOpt local_val new_val) g = rlookup local_val g := by
  induction new_val generalizing local_val with
  | nil => simp [applyPatch]
  | cons e t ih =>
    obtain ⟨k, v⟩ := e
    have hgk : g ≠ k := by
      intro hc
      subst hc
      simp [rlookup] at h
    have ht : rlookup t g = none := by
      simpa [rlookup, hgk] using h
    rw [applyPatch_cons, ih _ ht]
    by_cases hc : olookup sOpt k = some v
    · rw [if_pos hc]
    · rw [if_neg hc]
      exact rlookup_rinsert_ne local_val k g v hgk

theorem applyPatch_lookup (sOpt : Option Record) (new_val : Record)
    (local_val : Record) (g : String) (v : Value) (hcanon : Canon new_val)
    (hv : rlookup new_val g = some v) :
    rlookup (applyPatch sOpt local_val new_val) g =
      (if olookup sOpt g = some v then rlookup local_val g else some v) := by
  induction new_val generalizing local_val with
  | nil => simp [rlookup] at hv
  | cons e t ih =>
    obtain ⟨k, w⟩ := e
    simp only [Canon, List.pairwise_cons] at hcanon
    obtain ⟨hall, ht⟩ := hcanon
    by_cases hgk : g = k
    · subst hgk
      simp only [rlookup, if_pos rfl] at hv
      injection hv with hv
      subst hv
      have htg : rlookup t g = none := by
        apply rlookup_eq_none_of_all_ne
        intro p hp
        exact fun hc => absurd (hc ▸ hall p hp) (by simp [strLt_irrefl])
      rw [applyPatch_cons, applyPatch_lookup_notin _ _ _ _ htg]
      by_cases hc : olookup sOpt g = some w
      · rw [if_pos hc, if_pos hc]
      · rw [if_neg hc, if_neg hc]
        exact rlookup_rinsert_self local_val g w
    · simp only [rlookup, if_neg hgk] at hv
      rw [applyPatch_cons]
      rw [ih _ ht hv]
      by_cases hc : olookup sOpt k = some w
      · rw [if_pos hc]
      · rw [if_neg hc]
        by_cases hd : olookup sOpt g = some v
        · rw [if_pos hd, if_pos hd]
          exact rlookup_rinsert_ne local_val k g w hgk
        · rw [if_neg hd, if_neg hd]

theorem applyDeletes_cons (k : String) (v : Value) (t : Record)
    (new_val local_val : Record) :
    applyDeletes ((k, v) :: t) new_val local_val =
      applyDeletes t new_val
        (if rlookup new_val k = none then rerase local_val k
         else local_val) := by
  rw [applyDeletes, applyDeletes, List.foldl_cons]

theorem applyDeletes_lookup (s : Record) (new_val local_val : Record)
    (g : String) :
    rlookup (applyDeletes s new_val local_val) g =
      (if rlookup s g ≠ none ∧ rlookup new_val g = none then none
       else rlookup local_val g) := by
  induction s generalizing local_val with
  | nil => simp [applyDeletes, rlookup]
  | cons e t ih =>
    obtain ⟨k, w⟩ := e
    rw [applyDeletes_cons, ih]
    by_cases hgk : g = k
    · subst hgk
      cases hn : rlookup new_val g with
      | none => simp [rlookup, hn, rlookup_rerase_self]
      | some u => simp [rlookup, hn]
    · have hl : rlookup (if rlookup new_val k = none then rerase local_val k
          else local_val) g = rlookup local_val g := by
        by_cases hc : rlookup new_val k = none
        · rw [if_pos hc]
          exact rlookup_rerase_ne _ _ _ hgk
        · rw [if_neg hc]
      rw [hl]
      simp [rlookup, hgk]

theorem mergeLocal_lookup (s : Record) (local_val new_val : Record)
    (g : String) (hcanon : Canon new_val) :
    rlookup (mergeLocal (some s) local_val new_val) g =
      (match rlookup new_val g, rlookup s g with
       | some v, so => if so = some v then rlookup local_val g else some v
       | none, some _ => none
       | none, none => rlookup local_val g) := by
  rw [show mergeLocal (some s) local_val new_val =
    applyDeletes s new_val (applyPatch (some s) local_val new_val) from rfl]
  rw [applyDeletes_lookup]
  cases hn : rlookup new_val g with
  | some v =>
    rw [if_neg (by simp [hn])]
    rw [applyPatch_lookup (some s) new_val local_val g v hcanon hn]
    cases hs : rlookup s g with
    | none => simp [olookup, hs]
    | some w => simp [olookup, hs]
  | none =>
    cases hs : rlookup s g with
    | none =>
      rw [if_neg (by simp [hs])]
      exact applyPatch_lookup_notin _ _ _ _ hn
    | some w =>
      rw [if_pos (by simp [hs, hn])]

/-- C1: the 3-way merge of `_handle_new_val`.  First, the general
field-level characterization: for every field, the merged local record
takes the incoming value exactly where the incoming value differs from
the last recorded server value, is erased exactly where the last server
value has the field but the incoming record does not, and keeps the
local value (local edits included) everywhere else.  Second, the claimed
consequence: a local edit `x.f = A` made while disconnected, followed by
a reconnect snapshot in which `x.f` equals the last known server value
`C`, leaves the local edit in place and triggers a save for the table
(the conflict flag of `_update_all` invokes `save`). -/
theorem c1_merge_patch_no_lost_writes :
    (∀ (s local_val new_val : Record) (g : String), Canon new_val →
      rlookup (mergeLocal (some s) local_val new_val) g =
        (match rlookup new_val g, rlookup s g with
         | some v, so => if so = some v then rlookup local_val g else some v
         | none, some _ => none
         | none, none => rlookup local_val g)) ∧
    (let r := update_all ⟨"id", ["f"], [], true⟩
        ⟨ConnState.connected,
          some [("x", [("f", Value.vstr "A"), ("id", Value.vstr "x")])],
          some [("x", [("f", Value.vstr "C"), ("id", Value.vstr "x")])],
          false⟩
        (some [[("f", Value.vstr "C"), ("id", Value.vstr "x")]])
     r.st.value_local =
        some [("x", [("f", Value.vstr "A"), ("id", Value.vstr "x")])] ∧
      r.saveTriggered = true) := by
  constructor
  · intro s local_val new_val g hcanon
    exact mergeLocal_lookup s local_val new_val g hcanon
  · exact ⟨by decide, by decide⟩

theorem c1_merge_patch_no_lost_writes_witness :
    rlookup (mergeLocal
      (some [("f", Value.vstr "C"), ("id", Value.vstr "x")])
      [("f", Value.vstr "A"), ("id", Value.vstr "x")]
      [("f", Value.vstr "C"), ("id", Value.vstr "x")]) "f" =
      some (Value.vstr "A") := by
  have h := c1_merge_patch_no_lost_writes.1
    [("f", Value.vstr "C"), ("id", Value.vstr "x")]
    [("f", Value.vstr "A"), ("id", Value.vstr "x")]
    [("f", Value.vstr "C"), ("id", Value.vstr "x")] "f" (by decide)
  rw [h]
  decide

theorem canon_nodup_keys (l : List (String × α)) (h : Canon l) :
    (l.map Prod.fst).Nodup := by
  refine List.Pairwise.map Prod.fst ?_ h
  intro a b hab
  exact ne_of_strLt a.1 b.1 hab

theorem changes_fn_mem (L S : StateMap) (c : ChangeEntry)
    (hc : c ∈ changes_fn L S) :
    (c.key, c.new_val) ∈ L ∧ c.old_val = rlookup S c.key ∧
      rlookup S c.key ≠ some c.new_val := by
  rw [changes_fn] at hc
  rcases List.mem_filterMap.mp hc with ⟨e, he, hfe⟩
  by_cases hcond : rlookup S e.1 = some e.2
  · rw [if_pos hcond] at hfe
    exact absurd hfe (by simp)
  · rw [if_neg hcond] at hfe
    injection hfe with hfe
    subst hfe
    exact ⟨he, rfl, hcond⟩

theorem changes_fn_mem_intro (L S : StateMap) (k : String) (rec : Record)
    (he : (k, rec) ∈ L) (hne : rlookup S k ≠ some rec) :
    (⟨k, rec, rlookup S k⟩ : ChangeEntry) ∈ changes_fn L S := by
  rw [changes_fn]
  refine List.mem_filterMap.mpr ⟨(k, rec), he, ?_⟩
  rw [if_neg hne]

theorem changes_fn_keys_sublist (L S : StateMap) :
    ((changes_fn L S).map (fun c => c.key)).Sublist (L.map Prod.fst) := by
  induction L with
  | nil => simp [changes_fn]
  | cons e t ih =>
    rw [changes_fn, List.filterMap_cons]
    by_cases hcond : rlookup S e.1 = some e.2
    · rw [if_pos hcond]
      rw [changes_fn] at ih
      simp only [List.map_cons]
      exact ih.cons e.1
    · rw [if_neg hcond]
      rw [changes_fn] at ih
      simp only [List.map_cons]
      exact ih.cons₂ e.1

theorem advance_server_lookup (changed : List ChangeEntry) (S : StateMap)
    (hold : ∀ c ∈ changed, c.old_val = rlookup S c.key)
    (hnodup : (changed.map (fun c => c.key)).Nodup) :
    (∀ c ∈ changed,
      rlookup (advance_server S changed) c.key = some c.new_val) ∧
    (∀ k, (∀ c ∈ changed, c.key ≠ k) →
      rlookup (advance_server S changed) k = rlookup S k) := by
  induction changed generalizing S with
  | nil => simp [advance_server]
  | cons c0 t ih =>
    have hguard : rlookup S c0.key = c0.old_val :=
      (hold c0 (List.mem_cons_self _ _)).symm
    have hstep : advance_server S (c0 :: t) =
        advance_server (rinsert S c0.key c0.new_val) t := by
      rw [advance_server, advance_server, List.foldl_cons, if_pos hguard]
    rw [List.map_cons, List.nodup_cons] at hnodup
    obtain ⟨hk0, hnodup2⟩ := hnodup
    have hold2 : ∀ c ∈ t, c.old_val =
        rlookup (rinsert S c0.key c0.new_val) c.key := by
      intro c hc
      have hne : c.key ≠ c0.key := by
        intro hcc
        exact hk0 (hcc ▸ List.mem_map_of_mem (fun c => c.key) hc)
      rw [rlookup_rinsert_ne S c0.key c.key c0.new_val hne]
      exact hold c (List.mem_cons_of_mem _ hc)
    obtain ⟨ih1, ih2⟩ := ih (rinsert S c0.key c0.new_val) hold2 hnodup2
    constructor
    · intro c hc
      rcases List.mem_cons.mp hc with hc | hc
      · subst hc
        rw [hstep]
        rw [ih2 c.key ?_]
        · exact rlookup_rinsert_self S c.key c.new_val
        · intro c2 hc2 hcc
          exact hk0 (hcc ▸ List.mem_map_of_mem (fun c => c.key) hc2)
      · rw [hstep]
        exact ih1 c hc
    · intro k hk
      rw [hstep, ih2 k (fun c hc => hk c (List.mem_cons_of_mem _ hc))]
      exact rlookup_rinsert_ne S c0.key k c0.new_val
        (fun hc => hk c0 (List.mem_cons_self _ _) hc.symm)

theorem changes_after_advance (L S : StateMap) (hcanon : Canon L) :
    changes_fn L (advance_server S (changes_fn L S)) = [] := by
  rw [changes_fn, List.filterMap_eq_nil_iff]
  intro e he
  obtain ⟨k, rec⟩ := e
  have hold : ∀ c ∈ changes_fn L S, c.old_val = rlookup S c.key :=
    fun c hc => (changes_fn_mem L S c hc).2.1
  have hnodup : ((changes_fn L S).map (fun c => c.key)).Nodup :=
    List.Nodup.sublist (changes_fn_keys_sublist L S) (canon_nodup_keys L hcanon)
  obtain ⟨adv1, adv2⟩ := advance_server_lookup (changes_fn L S) S hold hnodup
  by_cases hs : rlookup S k = some rec
  · have hpres : rlookup (advance_server S (changes_fn L S)) k =
        rlookup S k := by
      refine adv2 k ?_
      intro c hc hck
      obtain ⟨hmem, hov, hnev⟩ := changes_fn_mem L S c hc
      rw [hck] at hmem hnev
      have h1 : rlookup L k = some c.new_val :=
        canon_lookup_of_mem L k c.new_val hcanon hmem
      have h2 : rlookup L k = some rec :=
        canon_lookup_of_mem L k rec hcanon he
      rw [h1] at h2
      injection h2 with h2
      exact hnev (h2 ▸ hs)
    rw [if_pos (by rw [hpres]; exact hs)]
  · have hmem2 : (⟨k, rec, rlookup S k⟩ : ChangeEntry) ∈ changes_fn L S :=
      changes_fn_mem_intro L S k rec he hs
    have h3 := adv1 _ hmem2
    rw [if_pos h3]

/-- C3: when the save pipeline reports success, the local state at that
moment equals the snapshot taken at the start of the last save attempt
(`at_start`), and — for a settable table — the dirty-key diff of the
final state is empty, so no unsaved changes remain; moreover a local edit
arriving while a save is in flight makes the pipeline re-run the save (at
least two rounds) instead of reporting success after the first. -/
theorem c3_save_reports_success_only_when_clean (hasSet : Bool)
    (edits : List StateMap) (L S : StateMap) (hL : Canon L)
    (hedits : ∀ e ∈ edits, Canon e) :
    (save_loop hasSet edits L S).finalLocal =
      (save_loop hasSet edits L S).lastAtStart ∧
    (hasSet = true →
      changes_fn (save_loop hasSet edits L S).finalLocal
        (save_loop hasSet edits L S).finalServer = []) ∧
    1 ≤ (save_loop hasSet edits L S).rounds ∧
    (∀ e rest, edits = e :: rest → hasSet = true → changes_fn L S ≠ [] →
      e ≠ L → 2 ≤ (save_loop hasSet edits L S).rounds) := by
  induction edits generalizing L S with
  | nil =>
    by_cases hset : hasSet = false
    · simp [save_loop, hset]
    · have hset2 : hasSet = true := by
        cases hasSet
        · exact absurd rfl hset
        · rfl
      subst hset2
      by_cases hch : changes_fn L S = []
      · simp [save_loop, hch]
      · simp [save_loop, hch, changes_after_advance L S hL]
  | cons e rest ih =>
    by_cases hset : hasSet = false
    · simp [save_loop, hset]
    · have hset2 : hasSet = true := by
        cases hasSet
        · exact absurd rfl hset
        · rfl
      subst hset2
      by_cases hch : changes_fn L S = []
      · refine ⟨?_, ?_, ?_, ?_⟩
        · simp [save_loop, hch]
        · intro _
          simp [save_loop, hch]
        · simp [save_loop, hch]
        · intro e2 rest2 heq _ hch2 _
          exact absurd hch hch2
      · by_cases heL : e = L
        · refine ⟨?_, ?_, ?_, ?_⟩
          · simp [save_loop, hch, heL]
          · intro _
            simp [save_loop, hch, heL, changes_after_advance L S hL]
          · simp [save_loop, hch, heL]
          · intro e2 rest2 heq _ _ hne
            injection heq with he2 hr2
            exact absurd (he2 ▸ heL) hne
        · obtain ⟨ih1, ih2, ih3, _⟩ :=
            ih e (advance_server S (changes_fn L S))
              (hedits e (List.mem_cons_self _ _))
              (fun e2 he2 => hedits e2 (List.mem_cons_of_mem _ he2))
          refine ⟨?_, ?_, ?_, ?_⟩
          · simp only [save_loop, hch, heL]
            simp [hch, heL, ih1]
          · intro _
            simp only [save_loop, hch, heL]
            simp [hch, heL]
            exact ih2 rfl
          · simp only [save_loop, hch, heL]
            simp [hch, heL]
          · intro e2 rest2 heq _ _ _
            simp only [save_loop, hch, heL]
            simp [hch, heL]
            omega

theorem c3_save_reports_success_only_when_clean_witness :
    (save_loop true [[("x", [("f", Value.vstr "CC"), ("id", Value.vstr "x")])]]
      [("x", [("f", Value.vstr "B"), ("id", Value.vstr "x")])]
      [("x", [("f", Value.vstr "A"), ("id", Value.vstr "x")])]).finalLocal =
    (save_loop true [[("x", [("f", Value.vstr "CC"), ("id", Value.vstr "x")])]]
      [("x", [("f", Value.vstr "B"), ("id", Value.vstr "x")])]
      [("x", [("f", Value.vstr "A"), ("id", Value.vstr "x")])]).lastAtStart ∧
    changes_fn
      (save_loop true [[("x", [("f", Value.vstr "CC"), ("id", Value.vstr "x")])]]
        [("x", [("f", Value.vstr "B"), ("id", Value.vstr "x")])]
        [("x", [("f", Value.vstr "A"), ("id", Value.vstr "x")])]).finalLocal
      (save_loop true [[("x", [("f", Value.vstr "CC"), ("id", Value.vstr "x")])]]
        [("x", [("f", Value.vstr "B"), ("id", Value.vstr "x")])]
        [("x", [("f", Value.vstr "A"), ("id", Value.vstr "x")])]).finalServer
      = [] ∧
    2 ≤ (save_loop true
      [[("x", [("f", Value.vstr "CC"), ("id", Value.vstr "x")])]]
      [("x", [("f", Value.vstr "B"), ("id", Value.vstr "x")])]
      [("x", [("f", Value.vstr "A"), ("id", Value.vstr "x")])]).rounds := by
  have h := c3_save_reports_success_only_when_clean true
    [[("x", [("f", Value.vstr "CC"), ("id", Value.vstr "x")])]]
    [("x", [("f", Value.vstr "B"), ("id", Value.vstr "x")])]
    [("x", [("f", Value.vstr "A"), ("id", Value.vstr "x")])]
    (by decide) (by decide)
  refine ⟨h.1, h.2.1 rfl, ?_⟩
  exact h.2.2.2 _ _ rfl rfl (by decide) (by decide)

theorem rlookup_rinsert_present (l : List (String × α)) (k k2 : String)
    (v : α) (h : rlookup l k2 ≠ none) :
    rlookup (rinsert l k v) k2 ≠ none := by
  by_cases hk : k2 = k
  · subst hk
    rw [rlookup_rinsert_self]
    simp
  · rw [rlookup_rinsert_ne l k k2 v hk]
    exact h

theorem applyPatch_id (sOpt : Option Record) (local_val new_val : Record)
    (h : ∀ e ∈ new_val, olookup sOpt e.1 = some e.2) :
    applyPatch sOpt local_val new_val = local_val := by
  induction new_val generalizing local_val with
  | nil => rfl
  | cons e t ih =>
    rw [applyPatch_cons]
    obtain ⟨k, v⟩ := e
    rw [if_pos (h (k, v) (List.mem_cons_self _ _))]
    exact ih local_val (fun e2 he2 => h e2 (List.mem_cons_of_mem _ he2))

theorem applyDeletes_id (server_rec new_val local_val : Record)
    (h : ∀ e ∈ server_rec, rlookup new_val e.1 ≠ none) :
    applyDeletes server_rec new_val local_val = local_val := by
  induction server_rec generalizing local_val with
  | nil => rfl
  | cons e t ih =>
    rw [applyDeletes_cons]
    obtain ⟨k, v⟩ := e
    rw [if_neg (h (k, v) (List.mem_cons_self _ _))]
    exact ih local_val (fun e2 he2 => h e2 (List.mem_cons_of_mem _ he2))

theorem mergeLocal_self (r local_val : Record) (hcanon : Canon r) :
    mergeLocal (some r) local_val r = local_val := by
  rw [show mergeLocal (some r) local_val r =
    applyDeletes r r (applyPatch (some r) local_val r) from rfl]
  rw [applyPatch_id (some r) local_val r
    (fun e he => by
      rw [show olookup (some r) e.1 = rlookup r e.1 from rfl]
      exact canon_lookup_of_mem r e.1 e.2 hcanon he)]
  exact applyDeletes_id r r local_val
    (fun e he => by
      rw [canon_lookup_of_mem r e.1 e.2 hcanon he]
      simp)

theorem handle_new_val_noop (sch : TableSchema) (lm sm : StateMap)
    (xr : Record) (k : String) (l : Record)
    (hkey : tkey sch.pk xr = some k) (hcanon : Canon xr) (hsm : Canon sm)
    (hserver : rlookup sm k = some xr) (hlocal : rlookup lm k = some l) :
    ∃ cs2 b2, handle_new_val sch lm sm xr = ⟨lm, sm, [], cs2, b2⟩ := by
  have hself : rinsert sm k xr = sm := rinsert_self sm k xr hsm hserver
  rw [handle_new_val, hkey]
  simp only [hlocal]
  by_cases hxl : xr = l
  · rw [if_pos hxl, hself]
    exact ⟨[], false, rfl⟩
  · rw [if_neg hxl]
    have hmerged : mergeLocal (rlookup sm k) l xr = l := by
      rw [hserver]
      exact mergeLocal_self xr l hcanon
    simp only [hmerged, if_pos rfl]
    rw [if_neg (fun hc : l = xr => hxl hc.symm), hself]
    exact ⟨[(xr, l)], true, rfl⟩

theorem handle_new_val_canon (sch : TableSchema) (lm sm : StateMap)
    (xr : Record) (hlm : Canon lm) (hsm : Canon sm) :
    Canon (handle_new_val sch lm sm xr).localm ∧
    Canon (handle_new_val sch lm sm xr).serverm := by
  cases hk : tkey sch.pk xr with
  | none =>
    simp only [handle_new_val, hk]
    exact ⟨hlm, hsm⟩
  | some k =>
    simp only [handle_new_val, hk]
    cases hl : rlookup lm k with
    | none =>
      simp only
      exact ⟨canon_rinsert lm k xr hlm, canon_rinsert sm k xr hsm⟩
    | some l =>
      simp only
      by_cases hxl : xr = l
      · rw [if_pos hxl]
        exact ⟨hlm, canon_rinsert sm k xr hsm⟩
      · rw [if_neg hxl]
        by_cases hm : mergeLocal (rlookup sm k) l xr = l
        · simp only [hm, if_pos rfl]
          by_cases hm2 : l = xr
          · rw [if_pos hm2]
            exact ⟨hlm, canon_rinsert sm k xr hsm⟩
          · rw [if_neg hm2]
            exact ⟨hlm, canon_rinsert sm k xr hsm⟩
        · simp only [if_neg hm]
          by_cases hm2 : mergeLocal (rlookup sm k) l xr = xr
          · rw [if_pos hm2]
            exact ⟨canon_rinsert lm k _ hlm, canon_rinsert sm k xr hsm⟩
          · rw [if_neg hm2]
            exact ⟨canon_rinsert lm k _ hlm, canon_rinsert sm k xr hsm⟩

theorem handle_new_val_pushed_nil (sch : TableSchema) (lm sm : StateMap)
    (xr : Record) (k : String) (hkey : tkey sch.pk xr = some k)
    (hp : (handle_new_val sch lm sm xr).pushed = []) :
    (handle_new_val sch lm sm xr).localm = lm ∧
    (handle_new_val sch lm sm xr).serverm = rinsert sm k xr := by
  simp only [handle_new_val, hkey] at hp ⊢
  cases hl : rlookup lm k with
  | none =>
    simp only [hl] at hp
    simp at hp
  | some l =>
    simp only [hl] at hp ⊢
    by_cases hxl : xr = l
    · rw [if_pos hxl] at hp ⊢
      exact ⟨rfl, rfl⟩
    · rw [if_neg hxl] at hp ⊢
      by_cases hm : mergeLocal (rlookup sm k) l xr = l
      · simp only [hm, if_pos rfl] at hp ⊢
        by_cases hm2 : l = xr
        · rw [if_pos hm2] at hp ⊢
          exact ⟨rfl, rfl⟩
        · rw [if_neg hm2] at hp ⊢
          exact ⟨rfl, rfl⟩
      · simp only [if_neg hm] at hp
        by_cases hm2 : mergeLocal (rlookup sm k) l xr = xr
        · rw [if_pos hm2] at hp
          simp at hp
        · rw [if_neg hm2] at hp
          simp at hp

theorem handle_new_val_other_keys (sch : TableSchema) (lm sm : StateMap)
    (xr : Record) (k : String) (hkey : tkey sch.pk xr = some k)
    (k2 : String) (hk2 : k2 ≠ k) :
    rlookup (handle_new_val sch lm sm xr).localm k2 = rlookup lm k2 ∧
    rlookup (handle_new_val sch lm sm xr).serverm k2 = rlookup sm k2 := by
  simp only [handle_new_val, hkey]
  cases hl : rlookup lm k with
  | none =>
    simp only
    exact ⟨rlookup_rinsert_ne lm k k2 xr hk2,
      rlookup_rinsert_ne sm k k2 xr hk2⟩
  | some l =>
    simp only
    by_cases hxl : xr = l
    · rw [if_pos hxl]
      exact ⟨rfl, rlookup_rinsert_ne sm k k2 xr hk2⟩
    · rw [if_neg hxl]
      by_cases hm : mergeLocal (rlookup sm k) l xr = l
      · simp only [hm, if_pos rfl]
        by_cases hm2 : l = xr
        · rw [if_pos hm2]
          exact ⟨rfl, rlookup_rinsert_ne sm k k2 xr hk2⟩
        · rw [if_neg hm2]
          exact ⟨rfl, rlookup_rinsert_ne sm k k2 xr hk2⟩
      · simp only [if_neg hm]
        by_cases hm2 : mergeLocal (rlookup sm k) l xr = xr
        · rw [if_pos hm2]
          exact ⟨rlookup_rinsert_ne lm k k2 _ hk2,
            rlookup_rinsert_ne sm k k2 xr hk2⟩
        · rw [if_neg hm2]
          exact ⟨rlookup_rinsert_ne lm k k2 _ hk2,
            rlookup_rinsert_ne sm k k2 xr hk2⟩

theorem processEntry_pushed_prefix (sch : TableSchema) (x : StateMap)
    (acc : Acc) (e : String × Record) :
    ∃ ext, (processEntry sch x acc e).pushed = acc.pushed ++ ext := by
  rw [processEntry]
  cases hx : rlookup x e.1 with
  | some xr =>
    exact ⟨(handle_new_val sch acc.localm acc.serverm xr).pushed, rfl⟩
  | none =>
    by_cases hc : rlookup acc.localm e.1 = rlookup acc.serverm e.1
    · rw [if_pos hc]
      exact ⟨[e.1], rfl⟩
    · rw [if_neg hc]
      exact ⟨[], by simp⟩

theorem foldl_processEntry_pushed_prefix (sch : TableSchema) (x : StateMap)
    (entries : List (String × Record)) :
    ∀ acc : Acc, ∃ ext,
      (entries.foldl (processEntry sch x) acc).pushed = acc.pushed ++ ext := by
  induction entries with
  | nil =>
    intro acc
    exact ⟨[], by simp⟩
  | cons e t ih =>
    intro acc
    rw [List.foldl_cons]
    obtain ⟨e1, h1⟩ := processEntry_pushed_prefix sch x acc e
    obtain ⟨e2, h2⟩ := ih (processEntry sch x acc e)
    exact ⟨e1 ++ e2, by rw [h2, h1, List.append_assoc]⟩

theorem processEntry_canon (sch : TableSchema) (x : StateMap) (acc : Acc)
    (e : String × Record) (hl : Canon acc.localm) (hs : Canon acc.serverm) :
    Canon (processEntry sch x acc e).localm ∧
    Canon (processEntry sch x acc e).serverm := by
  rw [processEntry]
  cases hx : rlookup x e.1 with
  | some xr => exact handle_new_val_canon sch acc.localm acc.serverm xr hl hs
  | none =>
    by_cases hc : rlookup acc.localm e.1 = rlookup acc.serverm e.1
    · rw [if_pos hc]
      exact ⟨canon_rerase acc.localm e.1 hl, hs⟩
    · rw [if_neg hc]
      exact ⟨hl, hs⟩

theorem foldl_processEntry_canon (sch : TableSchema) (x : StateMap)
    (entries : List (String × Record)) :
    ∀ acc : Acc, Canon acc.localm → Canon acc.serverm →
      Canon (entries.foldl (processEntry sch x) acc).localm ∧
      Canon (entries.foldl (processEntry sch x) acc).serverm := by
  induction entries with
  | nil =>
    intro acc hl hs
    exact ⟨hl, hs⟩
  | cons e t ih =>
    intro acc hl hs
    rw [List.foldl_cons]
    obtain ⟨hl2, hs2⟩ := processEntry_canon sch x acc e hl hs
    exact ih (processEntry sch x acc e) hl2 hs2

theorem addNew_cons (acc : Acc) (e : String × Record) (t : StateMap) :
    addNew acc (e :: t) =
      addNew (if rlookup acc.localm e.1 = none then
          ⟨rinsert acc.localm e.1 e.2, acc.serverm, acc.pushed ++ [e.1],
            acc.conflicts, acc.conflict⟩
        else acc) t := by
  rw [addNew, addNew, List.foldl_cons]

theorem addNew_serverm (x : StateMap) :
    ∀ acc : Acc, (addNew acc x).serverm = acc.serverm := by
  induction x with
  | nil =>
    intro acc
    rfl
  | cons e t ih =>
    intro acc
    rw [addNew_cons]
    by_cases hc : rlookup acc.localm e.1 = none
    · rw [if_pos hc, ih]
    · rw [if_neg hc, ih]

theorem addNew_id (x : StateMap) :
    ∀ acc : Acc, (∀ e ∈ x, rlookup acc.localm e.1 ≠ none) →
      addNew acc x = acc := by
  induction x with
  | nil =>
    intro acc _
    rfl
  | cons e t ih =>
    intro acc h
    rw [addNew_cons, if_neg (h e (List.mem_cons_self _ _))]
    exact ih acc (fun e2 he2 => h e2 (List.mem_cons_of_mem _ he2))

theorem addNew_localm_present (x : StateMap) :
    ∀ (acc : Acc) (k : String), rlookup acc.localm k ≠ none →
      rlookup (addNew acc x).localm k ≠ none := by
  induction x with
  | nil =>
    intro acc k h
    exact h
  | cons e t ih =>
    intro acc k h
    rw [addNew_cons]
    by_cases hc : rlookup acc.localm e.1 = none
    · rw [if_pos hc]
      exact ih _ k (rlookup_rinsert_present acc.localm e.1 k e.2 h)
    · rw [if_neg hc]
      exact ih acc k h

theorem addNew_covers (x : StateMap) :
    ∀ (acc : Acc), ∀ e ∈ x, rlookup (addNew acc x).localm e.1 ≠ none := by
  induction x with
  | nil =>
    intro acc e he
    simp at he
  | cons e0 t ih =>
    intro acc e he
    rcases List.mem_cons.mp he with he | he
    · subst he
      rw [addNew_cons]
      by_cases hc : rlookup acc.localm e.1 = none
      · rw [if_pos hc]
        refine addNew_localm_present t _ e.1 ?_
        rw [rlookup_rinsert_self]
        simp
      · rw [if_neg hc]
        exact addNew_localm_present t acc e.1 hc
    · rw [addNew_cons]
      by_cases hc : rlookup acc.localm e0.1 = none
      · rw [if_pos hc]
        exact ih _ e he
      · rw [if_neg hc]
        exact ih acc e he

theorem addNew_canon (x : StateMap) :
    ∀ acc : Acc, Canon acc.localm → Canon (addNew acc x).localm := by
  induction x with
  | nil =>
    intro acc h
    exact h
  | cons e t ih =>
    intro acc h
    rw [addNew_cons]
    by_cases hc : rlookup acc.localm e.1 = none
    · rw [if_pos hc]
      exact ih _ (canon_rinsert acc.localm e.1 e.2 h)
    · rw [if_neg hc]
      exact ih acc h

theorem addNew_pushed_prefix (x : StateMap) :
    ∀ acc : Acc, ∃ ext, (addNew acc x).pushed = acc.pushed ++ ext := by
  induction x with
  | nil =>
    intro acc
    exact ⟨[], by simp [addNew]⟩
  | cons e t ih =>
    intro acc
    rw [addNew_cons]
    by_cases hc : rlookup acc.localm e.1 = none
    · rw [if_pos hc]
      obtain ⟨ext, hext⟩ := ih ⟨rinsert acc.localm e.1 e.2, acc.serverm,
        acc.pushed ++ [e.1], acc.conflicts, acc.conflict⟩
      exact ⟨[e.1] ++ ext, by rw [hext]; simp⟩
    · rw [if_neg hc]
      exact ih acc

theorem addNew_pushed_eq_id (x : StateMap) :
    ∀ acc : Acc, (addNew acc x).pushed = acc.pushed → addNew acc x = acc := by
  induction x with
  | nil =>
    intro acc _
    rfl
  | cons e t ih =>
    intro acc hp
    rw [addNew_cons] at hp ⊢
    by_cases hc : rlookup acc.localm e.1 = none
    · exfalso
      rw [if_pos hc] at hp
      obtain ⟨ext, hext⟩ := addNew_pushed_prefix t
        ⟨rinsert acc.localm e.1 e.2, acc.serverm, acc.pushed ++ [e.1],
          acc.conflicts, acc.conflict⟩
      rw [hext] at hp
      simp only [Acc.pushed] at hp
      have : acc.pushed.length = (acc.pushed ++ [e.1] ++ ext).length :=
        by rw [hp]
      simp [List.length_append] at this
    · rw [if_neg hc] at hp ⊢
      exact ih acc hp

theorem buildX_facts (sch : TableSchema) (v : List Record)
    (hv : ∀ rec ∈ v, Canon rec ∧ (tkey sch.pk rec).isSome = true) :
    Canon (buildX sch v) ∧
    (∀ k xr, rlookup (buildX sch v) k = some xr →
      tkey sch.pk xr = some k ∧ Canon xr) := by
  rw [buildX]
  have main : ∀ (w : List Record) (acc : StateMap),
      (∀ rec ∈ w, Canon rec ∧ (tkey sch.pk rec).isSome = true) →
      Canon acc →
      (∀ k xr, rlookup acc k = some xr →
        tkey sch.pk xr = some k ∧ Canon xr) →
      Canon (w.foldl (fun acc2 y =>
        match tkey sch.pk y with
        | some k => rinsert acc2 k y
        | none => acc2) acc) ∧
      (∀ k xr, rlookup (w.foldl (fun acc2 y =>
        match tkey sch.pk y with
        | some k => rinsert acc2 k y
        | none => acc2) acc) k = some xr →
        tkey sch.pk xr = some k ∧ Canon xr) := by
    intro w
    induction w with
    | nil =>
      intro acc _ hacc hprop
      exact ⟨hacc, hprop⟩
    | cons y t ih =>
      intro acc hw hacc hprop
      rw [List.foldl_cons]
      obtain ⟨hyc, hyk⟩ := hw y (List.mem_cons_self _ _)
      obtain ⟨k0, hk0⟩ := Option.isSome_iff_exists.mp hyk
      rw [hk0]
      refine ih _ (fun rec hrec => hw rec (List.mem_cons_of_mem _ hrec))
        (canon_rinsert acc k0 y hacc) ?_
      intro k xr hkxr
      by_cases hkk : k = k0
      · subst hkk
        rw [rlookup_rinsert_self] at hkxr
        injection hkxr with hkxr
        subst hkxr
        exact ⟨hk0, hyc⟩
      · rw [rlookup_rinsert_ne acc k0 k y hkk] at hkxr
        exact hprop k xr hkxr
  exact main v [] hv (by simp [Canon]) (by simp [rlookup])

theorem foldl_processEntry_clean (sch : TableSchema) (x : StateMap)
    (Hx : ∀ k xr, rlookup x k = some xr → tkey sch.pk xr = some k) :
    ∀ (entries : List (String × Record)) (acc : Acc),
      (entries.map Prod.fst).Nodup →
      (entries.foldl (processEntry sch x) acc).pushed = acc.pushed →
      ((entries.foldl (processEntry sch x) acc).localm = acc.localm ∧
       (∀ e ∈ entries, ∀ xr, rlookup x e.1 = some xr →
         rlookup (entries.foldl (processEntry sch x) acc).serverm e.1 =
           some xr) ∧
       (∀ k, rlookup x k = none →
         rlookup (entries.foldl (processEntry sch x) acc).serverm k =
           rlookup acc.serverm k) ∧
       (∀ k, (∀ e ∈ entries, e.1 ≠ k) →
         rlookup (entries.foldl (processEntry sch x) acc).serverm k =
           rlookup acc.serverm k) ∧
       (∀ e ∈ entries, rlookup x e.1 = none →
         ¬ rlookup acc.localm e.1 = rlookup acc.serverm e.1)) := by
  intro entries
  induction entries with
  | nil =>
    intro acc _ _
    refine ⟨rfl, ?_, ?_, ?_, ?_⟩ <;> simp
  | cons e t ih =>
    intro acc hnodup hpush
    rw [List.map_cons, List.nodup_cons] at hnodup
    obtain ⟨hek, htnodup⟩ := hnodup
    rw [List.foldl_cons] at hpush ⊢
    obtain ⟨ea, hea⟩ := processEntry_pushed_prefix sch x acc e
    obtain ⟨eb, heb⟩ := foldl_processEntry_pushed_prefix sch x t
      (processEntry sch x acc e)
    have hlen : acc.pushed.length + (ea.length + eb.length) =
        acc.pushed.length := by
      have h0 := congrArg List.length hpush
      rw [heb, hea, List.append_assoc] at h0
      simpa [List.length_append] using h0
    have hea0 : ea = [] :=
      List.eq_nil_of_length_eq_zero (by omega)
    have heb0 : eb = [] :=
      List.eq_nil_of_length_eq_zero (by omega)
    have hstep_push : (processEntry sch x acc e).pushed = acc.pushed := by
      rw [hea, hea0]
      simp
    have hres_push :
        (t.foldl (processEntry sch x) (processEntry sch x acc e)).pushed =
          (processEntry sch x acc e).pushed := by
      rw [heb, heb0]
      simp
    have hne_t : ∀ e3 ∈ t, e3.1 ≠ e.1 := by
      intro e3 he3 hcc
      exact hek (hcc ▸ List.mem_map_of_mem Prod.fst he3)
    cases hx : rlookup x e.1 with
    | some xr =>
      have hkey := Hx e.1 xr hx
      have hpe : processEntry sch x acc e =
          ⟨(handle_new_val sch acc.localm acc.serverm xr).localm,
            (handle_new_val sch acc.localm acc.serverm xr).serverm,
            acc.pushed ++
              (handle_new_val sch acc.localm acc.serverm xr).pushed,
            acc.conflicts ++
              (handle_new_val sch acc.localm acc.serverm xr).conflicts,
            acc.conflict ||
              (handle_new_val sch acc.localm acc.serverm xr).conflict⟩ := by
        rw [processEntry, hx]
      have hhp : (handle_new_val sch acc.localm acc.serverm xr).pushed
          = [] := by
        have h1 := hstep_push
        rw [hpe] at h1
        simp only at h1
        have h2 := congrArg List.length h1
        simp only [List.length_append] at h2
        exact List.eq_nil_of_length_eq_zero (by omega)
      obtain ⟨hlm, hsm⟩ := handle_new_val_pushed_nil sch acc.localm
        acc.serverm xr e.1 hkey hhp
      have hA10 : (processEntry sch x acc e).localm = acc.localm := by
        rw [hpe]
        exact hlm
      have hA11 : (processEntry sch x acc e).serverm =
          rinsert acc.serverm e.1 xr := by
        rw [hpe]
        exact hsm
      obtain ⟨ih1, ih2, ih3, ih4, ih5⟩ :=
        ih (processEntry sch x acc e) htnodup hres_push
      refine ⟨?_, ?_, ?_, ?_, ?_⟩
      · rw [ih1, hA10]
      · intro e2 he2 xr2 hx2
        rcases List.mem_cons.mp he2 with he2 | he2
        · subst he2
          rw [hx] at hx2
          injection hx2 with hx2
          subst hx2
          rw [ih4 e2.1 (fun e3 he3 => hne_t e3 he3), hA11]
          exact rlookup_rinsert_self acc.serverm e2.1 _
        · exact ih2 e2 he2 xr2 hx2
      · intro k hk
        have hknek : k ≠ e.1 := by
          intro hcc
          rw [hcc, hx] at hk
          exact Option.noConfusion hk
        rw [ih3 k hk, hA11]
        exact rlookup_rinsert_ne acc.serverm e.1 k xr hknek
      · intro k hks
        have hknek : k ≠ e.1 :=
          fun hcc => hks e (List.mem_cons_self _ _) hcc.symm
        rw [ih4 k (fun e3 he3 => hks e3 (List.mem_cons_of_mem _ he3)), hA11]
        exact rlookup_rinsert_ne acc.serverm e.1 k xr hknek
      · intro e2 he2 hx2
        rcases List.mem_cons.mp he2 with he2 | he2
        · subst he2
          rw [hx] at hx2
          exact Option.noConfusion hx2
        · have h5 := ih5 e2 he2 hx2
          rw [hA10, hA11] at h5
          rwa [rlookup_rinsert_ne acc.serverm e.1 e2.1 xr
            (hne_t e2 he2)] at h5
    | none =>
      by_cases hc : rlookup acc.localm e.1 = rlookup acc.serverm e.1
      · exfalso
        have hpe : processEntry sch x acc e =
            ⟨rerase acc.localm e.1, acc.serverm, acc.pushed ++ [e.1],
              acc.conflicts, acc.conflict⟩ := by
          rw [processEntry, hx, if_pos hc]
        rw [hpe] at hstep_push
        simp only at hstep_push
        have h2 := congrArg List.length hstep_push
        simp [List.length_append] at h2
      · have hpe : processEntry sch x acc e =
            ⟨acc.localm, acc.serverm, acc.pushed, acc.conflicts, true⟩ := by
          rw [processEntry, hx, if_neg hc]
        obtain ⟨ih1, ih2, ih3, ih4, ih5⟩ :=
          ih (processEntry sch x acc e) htnodup hres_push
        rw [hpe] at ih1 ih2 ih3 ih4 ih5
        refine ⟨?_, ?_, ?_, ?_, ?_⟩
        · rw [hpe]
          exact ih1
        · intro e2 he2 xr2 hx2
          rcases List.mem_cons.mp he2 with he2 | he2
          · subst he2
            rw [hx] at hx2
            exact Option.noConfusion hx2
          · rw [hpe]
            exact ih2 e2 he2 xr2 hx2
        · intro k hk
          rw [hpe]
          exact ih3 k hk
        · intro k hks
          rw [hpe]
          exact ih4 k (fun e3 he3 => hks e3 (List.mem_cons_of_mem _ he3))
        · intro e2 he2 hx2
          rcases List.mem_cons.mp he2 with he2 | he2
          · subst he2
            exact hc
          · exact ih5 e2 he2 hx2

theorem processEntry_mk_some (sch : TableSchema) (x : StateMap)
    (L S : StateMap) (p : List String) (cs : List (Record × Record))
    (b : Bool) (e : String × Record) (xr : Record)
    (hx : rlookup x e.1 = some xr) :
    processEntry sch x ⟨L, S, p, cs, b⟩ e =
      ⟨(handle_new_val sch L S xr).localm,
        (handle_new_val sch L S xr).serverm,
        p ++ (handle_new_val sch L S xr).pushed,
        cs ++ (handle_new_val sch L S xr).conflicts,
        b || (handle_new_val sch L S xr).conflict⟩ := by
  rw [processEntry, hx]

theorem processEntry_mk_none (sch : TableSchema) (x : StateMap)
    (L S : StateMap) (p : List String) (cs : List (Record × Record))
    (b : Bool) (e : String × Record) (hx : rlookup x e.1 = none)
    (hc : ¬ rlookup L e.1 = rlookup S e.1) :
    processEntry sch x ⟨L, S, p, cs, b⟩ e = ⟨L, S, p, cs, true⟩ := by
  rw [processEntry, hx]
  rw [if_neg hc]

theorem app2_iter (sch : TableSchema) (x L1 S1 : StateMap)
    (Hx : ∀ k xr, rlookup x k = some xr →
      tkey sch.pk xr = some k ∧ Canon xr)
    (HL1 : Canon L1) (HS1 : Canon S1)
    (F2 : ∀ k xr, rlookup x k = some xr → rlookup S1 k = some xr)
    (F4 : ∀ k l, rlookup L1 k = some l → rlookup x k = none →
      rlookup S1 k ≠ some l) :
    ∀ (entries : List (String × Record)), (∀ e ∈ entries, e ∈ L1) →
      ∀ (p : List String) (cs : List (Record × Record)) (b : Bool),
        (entries.foldl (processEntry sch x) ⟨L1, S1, p, cs, b⟩).localm = L1 ∧
        (entries.foldl (processEntry sch x) ⟨L1, S1, p, cs, b⟩).serverm = S1 ∧
        (entries.foldl (processEntry sch x) ⟨L1, S1, p, cs, b⟩).pushed = p := by
  intro entries
  induction entries with
  | nil =>
    intro _ p cs b
    exact ⟨rfl, rfl, rfl⟩
  | cons e t ih =>
    intro hmem p cs b
    rw [List.foldl_cons]
    have heL1 : e ∈ L1 := hmem e (List.mem_cons_self _ _)
    have hlook : rlookup L1 e.1 = some e.2 :=
      canon_lookup_of_mem L1 e.1 e.2 HL1 heL1
    have hstep : ∃ cs2 b2,
        processEntry sch x ⟨L1, S1, p, cs, b⟩ e = ⟨L1, S1, p, cs2, b2⟩ := by
      cases hx : rlookup x e.1 with
      | some xr =>
        obtain ⟨hkey, hcanon⟩ := Hx e.1 xr hx
        obtain ⟨cs3, b3, hnv⟩ := handle_new_val_noop sch L1 S1 xr e.1 e.2
          hkey hcanon HS1 (F2 e.1 xr hx) hlook
        refine ⟨cs ++ cs3, b || b3, ?_⟩
        rw [processEntry_mk_some sch x L1 S1 p cs b e xr hx, hnv]
        simp
      | none =>
        have hc : ¬ rlookup L1 e.1 = rlookup S1 e.1 := by
          rw [hlook]
          intro hcc
          exact F4 e.1 e.2 hlook hx hcc.symm
        exact ⟨cs, true, processEntry_mk_none sch x L1 S1 p cs b e hx hc⟩
    obtain ⟨cs2, b2, hpe⟩ := hstep
    rw [hpe]
    exact ih (fun e2 he2 => hmem e2 (List.mem_cons_of_mem _ he2)) p cs2 b2

/-- C5: idempotent resync.  Applying the same complete snapshot twice in
a row, with no local edits between the two applications, computes zero
changed keys on the second application: the second `_update_all` pushes
no keys and makes no change notification (after the first application has
already fired its own). -/
theorem c5_idempotent_resync (sch : TableSchema) (st : SyncState)
    (v : List Record)
    (hst : st.state ≠ ConnState.closed)
    (hv : ∀ rec ∈ v, Canon rec ∧ (tkey sch.pk rec).isSome = true)
    (hWL : ∀ L, st.value_local = some L → Canon L)
    (hWS : ∀ S, st.value_server = some S → Canon S) :
    (update_all sch (update_all sch st (some v)).st (some v)).pushed = [] ∧
    (update_all sch (update_all sch st (some v)).st (some v)).emitCall =
      none := by
  obtain ⟨hxcanon, hxfacts⟩ := buildX_facts sch v hv
  have Hx : ∀ k xr, rlookup (buildX sch v) k = some xr →
      tkey sch.pk xr = some k := fun k xr h => (hxfacts k xr h).1
  -- Facts about the state after the first application.
  have key : ∃ L1 S1,
      (update_all sch st (some v)).st.state = st.state ∧
      (update_all sch st (some v)).st.value_local = some L1 ∧
      (update_all sch st (some v)).st.value_server = some S1 ∧
      Canon L1 ∧ Canon S1 ∧
      (∀ k xr, rlookup (buildX sch v) k = some xr →
        rlookup S1 k = some xr) ∧
      (∀ k xr, rlookup (buildX sch v) k = some xr →
        rlookup L1 k ≠ none) ∧
      (∀ k l, rlookup L1 k = some l → rlookup (buildX sch v) k = none →
        rlookup S1 k ≠ some l) := by
    cases hL0 : st.value_local with
    | none =>
      refine ⟨buildX sch v, buildX sch v, ?_⟩
      rw [update_all, if_neg hst]
      cases hS0 : st.value_server with
      | none =>
        simp only [hL0, hS0]
        refine ⟨by trivial, by trivial, by trivial, hxcanon, hxcanon, ?_, ?_, ?_⟩
        · intro k xr h
          exact h
        · intro k xr h
          rw [h]
          simp
        · intro k l h1 h2
          rw [h2] at h1
          exact Option.noConfusion h1
      | some S0 =>
        simp only [hL0, hS0]
        refine ⟨by trivial, by trivial, by trivial, hxcanon, hxcanon, ?_, ?_, ?_⟩
        · intro k xr h
          exact h
        · intro k xr h
          rw [h]
          simp
        · intro k l h1 h2
          rw [h2] at h1
          exact Option.noConfusion h1
    | some L0 =>
      cases hS0 : st.value_server with
      | none =>
        refine ⟨buildX sch v, buildX sch v, ?_⟩
        rw [update_all, if_neg hst]
        simp only [hL0, hS0]
        refine ⟨by trivial, by trivial, by trivial, hxcanon, hxcanon, ?_, ?_, ?_⟩
        · intro k xr h
          exact h
        · intro k xr h
          rw [h]
          simp
        · intro k l h1 h2
          rw [h2] at h1
          exact Option.noConfusion h1
      | some S0 =>
        have hL0c : Canon L0 := hWL L0 hL0
        have hS0c : Canon S0 := hWS S0 hS0
        have hacc : Canon (⟨L0, S0, [], [], false⟩ : Acc).localm ∧
            Canon (⟨L0, S0, [], [], false⟩ : Acc).serverm := ⟨hL0c, hS0c⟩
        obtain ⟨ha1l, ha1s⟩ := foldl_processEntry_canon sch (buildX sch v)
          L0 ⟨L0, S0, [], [], false⟩ hL0c hS0c
        have ha2l : Canon (addNew
            (L0.foldl (processEntry sch (buildX sch v))
              ⟨L0, S0, [], [], false⟩) (buildX sch v)).localm :=
          addNew_canon (buildX sch v) _ ha1l
        have ha2s : (addNew
            (L0.foldl (processEntry sch (buildX sch v))
              ⟨L0, S0, [], [], false⟩) (buildX sch v)).serverm =
            (L0.foldl (processEntry sch (buildX sch v))
              ⟨L0, S0, [], [], false⟩).serverm :=
          addNew_serverm (buildX sch v) _
        have hF3 : ∀ k xr, rlookup (buildX sch v) k = some xr →
            rlookup (addNew
              (L0.foldl (processEntry sch (buildX sch v))
                ⟨L0, S0, [], [], false⟩) (buildX sch v)).localm k ≠ none := by
          intro k xr h
          have hm := mem_of_rlookup (buildX sch v) k xr h
          exact addNew_covers (buildX sch v) _ (k, xr) hm
        by_cases hp : (addNew
            (L0.foldl (processEntry sch (buildX sch v))
              ⟨L0, S0, [], [], false⟩) (buildX sch v)).pushed = []
        · -- no pushed keys on the first application either
          obtain ⟨ext, hext⟩ := addNew_pushed_prefix (buildX sch v)
            (L0.foldl (processEntry sch (buildX sch v))
              ⟨L0, S0, [], [], false⟩)
          have ha1p : (L0.foldl (processEntry sch (buildX sch v))
              ⟨L0, S0, [], [], false⟩).pushed = [] := by
            have h0 : (L0.foldl (processEntry sch (buildX sch v))
                ⟨L0, S0, [], [], false⟩).pushed ++ ext = [] := by
              rw [← hext]
              exact hp
            exact (List.append_eq_nil.mp h0).1
          have ha2id : addNew
              (L0.foldl (processEntry sch (buildX sch v))
                ⟨L0, S0, [], [], false⟩) (buildX sch v) =
              L0.foldl (processEntry sch (buildX sch v))
                ⟨L0, S0, [], [], false⟩ := by
            refine addNew_pushed_eq_id (buildX sch v) _ ?_
            rw [hp, ha1p]
          obtain ⟨cl1, cl2, cl3, cl4, cl5⟩ :=
            foldl_processEntry_clean sch (buildX sch v) Hx L0
              ⟨L0, S0, [], [], false⟩ (canon_nodup_keys L0 hL0c) ha1p
          refine ⟨(addNew (L0.foldl (processEntry sch (buildX sch v))
              ⟨L0, S0, [], [], false⟩) (buildX sch v)).localm,
            (addNew (L0.foldl (processEntry sch (buildX sch v))
              ⟨L0, S0, [], [], false⟩) (buildX sch v)).serverm, ?_⟩
          rw [update_all, if_neg hst]
          simp only [hL0, hS0, hp]
          refine ⟨by trivial, by trivial, by simp, ha2l, by rw [ha2s]; exact ha1s,
            ?_, hF3, ?_⟩
          · -- F2
            intro k xr h
            rw [ha2s]
            cases hk0v : rlookup L0 k with
            | none =>
              exfalso
              have h3 := hF3 k xr h
              rw [ha2id, cl1] at h3
              exact h3 hk0v
            | some l0 =>
              have hm := mem_of_rlookup L0 k l0 hk0v
              exact cl2 (k, l0) hm xr h
          · -- F4
            intro k l h1 h2
            rw [ha2id, cl1] at h1
            have hm := mem_of_rlookup L0 k l h1
            have h5 := cl5 (k, l) hm h2
            rw [ha2s, cl3 k h2]
            intro hcc
            exact h5 (h1.trans hcc.symm)
        · -- some keys pushed: the server state is replaced by the snapshot
          refine ⟨(addNew (L0.foldl (processEntry sch (buildX sch v))
              ⟨L0, S0, [], [], false⟩) (buildX sch v)).localm,
            buildX sch v, ?_⟩
          rw [update_all, if_neg hst]
          simp only [hL0, hS0, hp]
          refine ⟨by trivial, by trivial, by simp [hp], ha2l, hxcanon, ?_, hF3, ?_⟩
          · intro k xr h
            exact h
          · intro k l h1 h2
            rw [h2]
            simp
  obtain ⟨L1, S1, hstate1, hL1, hS1, hcL1, hcS1, hF2, hF3, hF4⟩ := key
  have hst1 : (update_all sch st (some v)).st.state ≠ ConnState.closed := by
    rw [hstate1]
    exact hst
  have Hx2 : ∀ k xr, rlookup (buildX sch v) k = some xr →
      tkey sch.pk xr = some k ∧ Canon xr := hxfacts
  have hiter := app2_iter sch (buildX sch v) L1 S1 Hx2 hcL1 hcS1 hF2 hF4
    L1 (fun e he => he) [] [] false
  obtain ⟨hi1, hi2, hi3⟩ := hiter
  have haddid : addNew (L1.foldl (processEntry sch (buildX sch v))
      ⟨L1, S1, [], [], false⟩) (buildX sch v) =
      L1.foldl (processEntry sch (buildX sch v)) ⟨L1, S1, [], [], false⟩ := by
    refine addNew_id (buildX sch v) _ ?_
    intro e he
    rw [hi1]
    have hx : rlookup (buildX sch v) e.1 = some e.2 :=
      canon_lookup_of_mem (buildX sch v) e.1 e.2 hxcanon he
    exact fun hc => (hF3 e.1 e.2 hx) hc
  rw [update_all, if_neg hst1]
  simp only [hL1, hS1, haddid, hi3]
  simp

/-- Witness for C5: a concrete dirty state (an unsaved edit to record `x`
and a purely local record `y`) resynchronised twice against the same
snapshot; the second application pushes nothing and emits nothing. -/
theorem c5_idempotent_resync_witness :
    (update_all ⟨"id", ["id", "f"], [], true⟩
      (update_all ⟨"id", ["id", "f"], [], true⟩
        ⟨ConnState.connected,
          some [("x", [("f", Value.vstr "A"), ("id", Value.vstr "x")]),
                ("y", [("id", Value.vstr "y")])],
          some [("x", [("f", Value.vstr "C"), ("id", Value.vstr "x")])],
          false⟩
        (some [[("f", Value.vstr "D"), ("id", Value.vstr "x")],
               [("id", Value.vstr "z")]])).st
      (some [[("f", Value.vstr "D"), ("id", Value.vstr "x")],
             [("id", Value.vstr "z")]])).pushed = [] ∧
    (update_all ⟨"id", ["id", "f"], [], true⟩
      (update_all ⟨"id", ["id", "f"], [], true⟩
        ⟨ConnState.connected,
          some [("x", [("f", Value.vstr "A"), ("id", Value.vstr "x")]),
                ("y", [("id", Value.vstr "y")])],
          some [("x", [("f", Value.vstr "C"), ("id", Value.vstr "x")])],
          false⟩
        (some [[("f", Value.vstr "D"), ("id", Value.vstr "x")],
               [("id", Value.vstr "z")]])).st
      (some [[("f", Value.vstr "D"), ("id", Value.vstr "x")],
             [("id", Value.vstr "z")]])).emitCall = none :=
  c5_idempotent_resync ⟨"id", ["id", "f"], [], true⟩
    ⟨ConnState.connected,
      some [("x", [("f", Value.vstr "A"), ("id", Value.vstr "x")]),
            ("y", [("id", Value.vstr "y")])],
      some [("x", [("f", Value.vstr "C"), ("id", Value.vstr "x")])],
      false⟩
    [[("f", Value.vstr "D"), ("id", Value.vstr "x")],
     [("id", Value.vstr "z")]]
    (by decide)
    (by decide)
    (fun L hL => (Option.some.inj hL) ▸
      (by decide : Canon
        [("x", [("f", Value.vstr "A"), ("id", Value.vstr "x")]),
         ("y", [("id", Value.vstr "y")])]))
    (fun S hS => (Option.some.inj hS) ▸
      (by decide : Canon
        [("x", [("f", Value.vstr "C"), ("id", Value.vstr "x")])]))

end SyncTableModel
